import Mathlib

/-!
# Verification of the GeminiTranscription core

A shallow embedding, over `List Char` and `ℚ`, of the timestamp parsing,
timestamp formatting, sequence normalization (monotonicity repair), JSON
repair and caption grouping logic of the repository.  JavaScript numbers
are modelled by exact rationals; JavaScript strings by `List Char` /
`String`.  Every definition is translated from the source files
(`src/unnamed/part_000`, `src/unnamed/part_001`,
`src/services/geminiService.ts`); comments point to the original function.
-/

namespace GT

/-! ## JavaScript string primitives -/

/-- The JavaScript whitespace set used by `String.prototype.trim` and by the
regex class `\s`: space, tab, LF, VT, FF, CR, NBSP, the Unicode space
separators, the line separators and the BOM. -/
def jsWhitespace (c : Char) : Bool :=
  let n := c.toNat
  (n == 32) || (n == 9) || (n == 10) || (n == 11) || (n == 12) || (n == 13) ||
  (n == 160) || (n == 0x1680) || (decide (0x2000 ≤ n) && decide (n ≤ 0x200a)) ||
  (n == 0x2028) || (n == 0x2029) || (n == 0x202f) || (n == 0x205f) ||
  (n == 0x3000) || (n == 0xfeff)

/-- ASCII digit test (JS `\d` and the digit ranges used by the source). -/
def isDigitC (c : Char) : Bool :=
  decide (48 ≤ c.toNat) && decide (c.toNat ≤ 57)

/-- `String.prototype.trim` on a character list. -/
def jsTrimL (l : List Char) : List Char :=
  ((l.dropWhile jsWhitespace).reverse.dropWhile jsWhitespace).reverse

/-- `String.prototype.trim`. -/
def jsTrim (s : String) : String := ⟨jsTrimL s.data⟩

/-- Numeric value of a digit character. -/
def dval (c : Char) : ℕ := c.toNat - 48

/-- Value of a digit string read in base 10 (used to model `parseFloat` /
`parseInt` on the digit runs they consume). -/
def natVal (l : List Char) : ℕ := l.foldl (fun a c => 10 * a + dval c) 0

/-- Value of a digit string read as a fractional part (the digits after a
decimal point). -/
def fracValQ (l : List Char) : ℚ := (natVal l : ℚ) / 10 ^ l.length

/-- `l.span isDigitC`: the leading digit run and the rest. -/
def spanDigits (l : List Char) : List Char × List Char :=
  (l.takeWhile isDigitC, l.dropWhile isDigitC)

/-- Optional leading sign, as consumed by `parseFloat`. -/
def splitSign (l : List Char) : ℚ × List Char :=
  match l with
  | [] => (1, [])
  | c :: t => if c = '+' then (1, t) else if c = '-' then (-1, t) else (1, l)

/-- Scale a rational by an integer power of ten (the effect of a parsed
exponent suffix). -/
def pow10 (e : ℤ) (v : ℚ) : ℚ :=
  if 0 ≤ e then v * 10 ^ e.toNat else v / 10 ^ (-e).toNat

/-- The decimal-literal part of `parseFloat`: a leading digit run, an
optional point followed by a digit run; fails when both runs are empty.
Returns the value and the unconsumed suffix. -/
def parseDec (l : List Char) : Option (ℚ × List Char) :=
  let ip := (spanDigits l).1
  let r1 := (spanDigits l).2
  match r1 with
  | '.' :: r2 =>
    let fp := (spanDigits r2).1
    if ip = [] ∧ fp = [] then none
    else some ((natVal ip : ℚ) + fracValQ fp, (spanDigits r2).2)
  | _ => if ip = [] then none else some ((natVal ip : ℚ), r1)

/-- The optional exponent suffix of `parseFloat` and of a JSON number:
`e`/`E`, an optional sign, and a non-empty digit run.  Returns the
exponent and the unconsumed suffix. -/
def parseExpR (l : List Char) : Option (ℤ × List Char) :=
  match l with
  | [] => none
  | c :: r =>
    if c = 'e' ∨ c = 'E' then
      let sr : ℤ × List Char :=
        match r with
        | [] => (1, [])
        | c2 :: t => if c2 = '+' then (1, t) else if c2 = '-' then (-1, t) else (1, r)
      let ds := (spanDigits sr.2).1
      if ds = [] then none else some (sr.1 * (natVal ds : ℤ), (spanDigits sr.2).2)
    else none

/-- The exponent value alone. -/
def parseExp (l : List Char) : Option ℤ :=
  match parseExpR l with
  | some er => some er.1
  | none => none

/-- JavaScript `parseFloat`: skip leading whitespace, optional sign, decimal
literal, optional exponent; `none` models `NaN`.  The `Infinity` literal is
unreachable at every call site in the source (inputs are lower-cased or
stripped of letters first), so it is not modelled. -/
def jsParseFloat (l : List Char) : Option ℚ :=
  let l1 := l.dropWhile jsWhitespace
  let sv := splitSign l1
  match parseDec sv.2 with
  | none => none
  | some vr =>
    let e := (parseExp vr.2).getD 0
    some (pow10 e (sv.1 * vr.1))

/-- `parseFloat(s) || 0`: `NaN` (and `0`, `-0`) collapse to `0`. -/
def jsParseFloatOr0 (l : List Char) : ℚ := (jsParseFloat l).getD 0

/-- `parseInt(s, 10) || 0`: skip whitespace, optional sign, a non-empty
digit run; `NaN` collapses to `0`. -/
def jsParseIntOr0 (l : List Char) : ℚ :=
  let l1 := l.dropWhile jsWhitespace
  let sv := splitSign l1
  let ds := (spanDigits sv.2).1
  if ds = [] then 0 else sv.1 * (natVal ds : ℚ)

/-- `String.prototype.split(':')` on a character list. -/
def splitOnColon : List Char → List (List Char)
  | [] => [[]]
  | c :: rest =>
    if c = ':' then [] :: splitOnColon rest
    else
      match splitOnColon rest with
      | [] => [[c]]
      | g :: gs => (c :: g) :: gs

/-- `.replace(/,/g, '.')` (single-character global replace). -/
def commaToDot (c : Char) : Char := if c = ',' then '.' else c

/-- The character class kept by `.replace(/[^\d:.]/g, '')`. -/
def keepTimeChar (c : Char) : Bool := isDigitC c || (c.toNat == 58) || (c.toNat == 46)

/-! ## TimestampParser (src/unnamed/part_001, `timestampToSeconds`) -/

/-- The cleaning step of `timestampToSeconds` in `src/unnamed/part_001`:
`ts.trim().replace(/,/g, '.').replace(/[^\d:.]/g, '')`. -/
def cleanTs (l : List Char) : List Char :=
  ((jsTrimL l).map commaToDot).filter keepTimeChar

/-- `timestampToSeconds` from `src/unnamed/part_001` (lines 42-69), on a
character list.  The guard `if (!ts) return 0` fires exactly on the empty
string for string-typed input. -/
def timestampToSecondsL (l : List Char) : ℚ :=
  if l = [] then 0
  else
    let clean := cleanTs l
    if ':' ∉ clean then jsParseFloatOr0 clean
    else
      match (splitOnColon clean).map jsParseFloatOr0 with
      | [a, b, c, d] => a * 3600 + b * 60 + c + d / 1000
      | [a, b, c] => a * 3600 + b * 60 + c
      | [a, b] => a * 60 + b
      | _ => jsParseFloatOr0 clean

/-- `timestampToSeconds` from `src/unnamed/part_001` on a `String`. -/
def timestampToSeconds (s : String) : ℚ := timestampToSecondsL s.data

/-! ## TimestampParser (src/services/geminiService.ts, `timestampToSeconds`) -/

/-- Full-width digit normalization:
`.replace(/[０-９]/g, s => String.fromCharCode(s.charCodeAt(0) - 0xFEE0))`. -/
def fullWidthToAscii (c : Char) : Char :=
  if 0xff10 ≤ c.toNat ∧ c.toNat ≤ 0xff19 then Char.ofNat (c.toNat - 0xfee0) else c

/-- `.replace(/：/g, ':')`: the full-width colon to ASCII. -/
def fullColonToAscii (c : Char) : Char := if c = '：' then ':' else c

/-- `timestampToSeconds` from `src/services/geminiService.ts` (lines
281-294) on the character list of `String(ts)`. -/
def timestampToSecondsGsL (l : List Char) : ℚ :=
  let str := ((jsTrimL l).map fullWidthToAscii).map fullColonToAscii
  let clean := (str.map commaToDot).filter keepTimeChar
  if ':' ∉ clean then jsParseFloatOr0 clean
  else
    match (splitOnColon clean).map jsParseFloatOr0 with
    | [a, b, c] => a * 3600 + b * 60 + c
    | [a, b] => a * 60 + b
    | _ => jsParseFloatOr0 clean

/-- Input type of the geminiService parser, whose signature is
`ts: string | number`.  A number input is coerced by `String(ts)`; the
JS rendering of the number is carried as an opaque string, which is all
the parser ever sees of it. -/
inductive TsInput where
  | str (s : String)
  | num (rendering : String)
  | jnull
  | undef
deriving DecidableEq

/-- `timestampToSeconds` from `src/services/geminiService.ts`:
`undefined`/`null` return `0`; everything else goes through `String(ts)`. -/
def timestampToSecondsGs : TsInput → ℚ
  | .undef => 0
  | .jnull => 0
  | .str s => timestampToSecondsGsL s.data
  | .num r => timestampToSecondsGsL r.data

/-! ## TimestampFormatter -/

/-- JS `Math.round`, which rounds half toward positive infinity:
`Math.round(x) = ⌊x + 1/2⌋`. -/
def jsRound (q : ℚ) : ℤ := ⌊q + 1 / 2⌋

/-- JS truncation toward zero (used by the float `%` operator). -/
def jsTrunc (q : ℚ) : ℤ := if q < 0 then ⌈q⌉ else ⌊q⌋

/-- JS `%` on numbers: `a - b * trunc(a / b)` (sign of the dividend). -/
def jsModQ (a b : ℚ) : ℚ := a - b * (jsTrunc (a / b) : ℚ)

/-- JS `%` on integer-valued numbers. -/
def jsModZ (a b : ℤ) : ℤ := Int.tmod a b

/-- Decimal digits of a natural number, most significant first
(`String(n)` for a natural JS number).  Fuel-based so that it reduces
definitionally; `natDigits` supplies sufficient fuel. -/
def natDigitsAux : ℕ → ℕ → List Char
  | 0, _ => []
  | fuel + 1, n =>
    if n < 10 then [Char.ofNat (48 + n)]
    else natDigitsAux fuel (n / 10) ++ [Char.ofNat (48 + n % 10)]

/-- Decimal digits of a natural number, most significant first. -/
def natDigits (n : ℕ) : List Char := natDigitsAux (n + 1) n

/-- `String(i)` for an integer-valued JS number. -/
def intToChars (i : ℤ) : List Char :=
  if i < 0 then '-' :: natDigits i.natAbs else natDigits i.toNat

/-- `String.prototype.padStart(k, c)`. -/
def padStart (k : ℕ) (c : Char) (l : List Char) : List Char :=
  List.replicate (k - l.length) c ++ l

/-- `secondsToTimestamp` from `src/unnamed/part_001` (lines 74-82):
seconds to `HH:MM:SS.mmm`, rounding to milliseconds first. -/
def secondsToTimestampL (totalSeconds : ℚ) : List Char :=
  let roundedMs : ℤ := jsRound (totalSeconds * 1000)
  let h : ℤ := ⌊(roundedMs : ℚ) / 3600000⌋
  let m : ℤ := ⌊(jsModZ roundedMs 3600000 : ℚ) / 60000⌋
  let s : ℤ := ⌊(jsModZ roundedMs 60000 : ℚ) / 1000⌋
  let ms : ℤ := jsModZ roundedMs 1000
  padStart 2 '0' (intToChars h) ++ ':' :: (padStart 2 '0' (intToChars m) ++
    ':' :: (padStart 2 '0' (intToChars s) ++ '.' :: padStart 3 '0' (intToChars ms)))

/-- `secondsToTimestamp` producing a `String`. -/
def secondsToTimestamp (totalSeconds : ℚ) : String := ⟨secondsToTimestampL totalSeconds⟩

/-- The seconds-to-`MM:SS.mmm` tail of `normalizeTimestamp` in
`src/services/geminiService.ts` (lines 335-339): the hour-folding
formatter variant. -/
def formatSecondsMMSSL (totalSeconds : ℚ) : List Char :=
  let m : ℤ := ⌊totalSeconds / 60⌋
  let s : ℤ := ⌊jsModQ totalSeconds 60⌋
  let ms : ℤ := jsRound (jsModQ totalSeconds 1 * 1000)
  padStart 2 '0' (intToChars m) ++ ':' :: (padStart 2 '0' (intToChars s) ++
    '.' :: padStart 3 '0' (intToChars ms))

/-- The hour-folding formatter producing a `String`. -/
def formatSecondsMMSS (totalSeconds : ℚ) : String := ⟨formatSecondsMMSSL totalSeconds⟩

/-- `String.prototype.split('.')`. -/
def splitOnDot : List Char → List (List Char)
  | [] => [[]]
  | c :: rest =>
    if c = '.' then [] :: splitOnDot rest
    else
      match splitOnDot rest with
      | [] => [[c]]
      | g :: gs => (c :: g) :: gs

/-- The seconds value computed by one `H?:M:S.ms` branch of
`normalizeTimestamp`: integer hour/minute parts via `parseInt || 0`,
integer seconds from the part before the dot, and `parseFloat("0." + f)`
for a truthy (non-empty) fractional part. -/
def normalizeBranch (hm : ℚ) (secPart : List Char) : ℚ :=
  let secParts := splitOnDot secPart
  let s := jsParseIntOr0 (secParts.getD 0 [])
  let ms : ℚ :=
    match secParts.getD 1 [] with
    | [] => 0
    | f => jsParseFloatOr0 ('0' :: '.' :: f)
  hm + s + ms

/-- `normalizeTimestamp` from `src/services/geminiService.ts` (lines
300-340): re-parse a timestamp string (raw seconds, `MM:SS.mmm` or
`HH:MM:SS.mmm`) into seconds — `none` models the `NaN` that a clean
string like `"."` produces — then re-emit `MM:SS.mmm` through the
hour-folding formatter, with `"00:00.000"` for empty, `NaN` or negative
input. -/
def normalizeTimestampL (l : List Char) : List Char :=
  if l = [] then ("00:00.000").data
  else
    let clean := ((jsTrimL l).map commaToDot).filter keepTimeChar
    let totalSeconds : Option ℚ :=
      if ':' ∉ clean ∧ clean ≠ [] ∧ clean.all (fun c => isDigitC c || c.toNat == 46) then
        jsParseFloat clean
      else
        match splitOnColon clean with
        | [p0, p1, p2] => some (normalizeBranch (jsParseIntOr0 p0 * 3600 + jsParseIntOr0 p1 * 60) p2)
        | [p0, p1] => some (normalizeBranch (jsParseIntOr0 p0 * 60) p1)
        | _ => some 0
    match totalSeconds with
    | none => ("00:00.000").data
    | some t => if t < 0 then ("00:00.000").data else formatSecondsMMSSL t

/-- `normalizeTimestamp` on a `String`. -/
def normalizeTimestamp (s : String) : String := ⟨normalizeTimestampL s.data⟩

/-! ## SequenceNormalizer (src/unnamed/part_001, `enforceMonotonicity`) -/

/-- A loosely-typed JS field value as found on a raw record: the field may
be missing (`undefined`), `null`, or a string.  (A numeric `startTime`
would make `ts.trim()` throw in the source; records reaching
`enforceMonotonicity` carry strings.) -/
inductive JVal where
  | undef
  | jnull
  | str (s : String)
deriving DecidableEq

/-- JS `String(v)` coercion. -/
def jsStringOfJVal : JVal → String
  | .undef => "undefined"
  | .jnull => "null"
  | .str s => s

/-- `timestampToSeconds(seg.startTime)` in `enforceMonotonicity`: the
`if (!ts) return 0` guard catches `undefined`/`null` (and the empty
string, handled inside `timestampToSecondsL`). -/
def tsOfJVal : JVal → ℚ
  | .undef => 0
  | .jnull => 0
  | .str s => timestampToSeconds s

/-- A raw segment record as consumed by `enforceMonotonicity`. -/
structure RawSeg where
  startTime : JVal
  endTime : JVal
  text : JVal
deriving DecidableEq

/-- The validated segment entity (`TranscriptionSegment` in
`src/types.ts`); the optional `words` field is never consumed by the
logic under verification and is omitted. -/
structure TranscriptionSegment where
  startTime : String
  endTime : String
  text : String
  translatedText : Option String
deriving DecidableEq

/-- One iteration of the `enforceMonotonicity` loop
(`src/unnamed/part_001` lines 94-126) on the numeric state
`(lastStartTime, lastEndTime)`: backward-jump repair with 0.1s tolerance,
causality repair, minimum-duration repair with 0.05s window.  Returns the
new state and the emitted numeric times with the coerced text. -/
def monoStep (st : ℚ × ℚ) (seg : RawSeg) : (ℚ × ℚ) × (ℚ × ℚ × String) :=
  let start0 := tsOfJVal seg.startTime
  let end0 := tsOfJVal seg.endTime
  let start1 := if start0 < st.2 - 1 / 10 then st.2 else start0
  let start2 := if start1 < st.1 then st.1 else start1
  let end1 := if end0 ≤ start2 then start2 + 1 / 20 else end0
  ((start2, end1), (start2, end1, jsTrim (jsStringOfJVal seg.text)))

/-- The `enforceMonotonicity` loop, emitting numeric times. -/
def monoGo (st : ℚ × ℚ) : List RawSeg → List (ℚ × ℚ × String)
  | [] => []
  | seg :: rest => (monoStep st seg).2 :: monoGo (monoStep st seg).1 rest

/-- The numeric output of `enforceMonotonicity`, starting from
`lastStartTime = -1`, `lastEndTime = 0` as in the source. -/
def monoTimes (segs : List RawSeg) : List (ℚ × ℚ × String) := monoGo (-1, 0) segs

/-- `enforceMonotonicity` from `src/unnamed/part_001` (lines 87-129): the
numeric loop above followed by re-serialization of each emitted pair via
`secondsToTimestamp`.  (The `!segments || segments.length === 0` guard is
the identity on lists.) -/
def enforceMonotonicity (segs : List RawSeg) : List TranscriptionSegment :=
  (monoTimes segs).map (fun t => ⟨secondsToTimestamp t.1, secondsToTimestamp t.2.1, t.2.2, none⟩)

/-! ## TimestampParser (src/unnamed/part_000, `parseTimestampToSeconds`) -/

/-- `.replace(',', '.')`: only the first occurrence is replaced (no `g`
flag in the source). -/
def replaceFirstComma : List Char → List Char
  | [] => []
  | c :: r => if c = ',' then '.' :: r else c :: replaceFirstComma r

/-- ASCII lower-casing (JS `toLowerCase`; the exporter inputs are
timestamps and transcript text, where only the ASCII range matters). -/
def toLowerC (c : Char) : Char :=
  if 65 ≤ c.toNat ∧ c.toNat ≤ 90 then Char.ofNat (c.toNat + 32) else c

/-- `parseTimestampToSeconds` from `src/unnamed/part_000` (lines 6-19):
trim, lower-case, drop `m`/`s` characters, replace the first comma, then
split on colons when present. -/
def parseTimestampToSecondsL (l : List Char) : ℚ :=
  let str := replaceFirstComma (((jsTrimL l).map toLowerC).filter (fun c => !(c == 'm' || c == 's')))
  if ':' ∈ str then
    match (splitOnColon str).map jsParseFloatOr0 with
    | [a, b, c] => a * 3600 + b * 60 + c
    | [a, b] => a * 60 + b
    | _ => jsParseFloatOr0 str
  else jsParseFloatOr0 str

/-- `parseTimestampToSeconds` on a `String` (the exporters only pass the
string-typed `startTime`/`endTime` fields of `TranscriptionSegment`). -/
def parseTimestampToSeconds (s : String) : ℚ := parseTimestampToSecondsL s.data

/-! ## CaptionGrouper (src/unnamed/part_000, grouping loop shared by
`exportAsVTT` lines 127-158 and `exportAsTTML` lines 207-240; the two
loops are textually identical) -/

/-- The text selector `type : 'original' | 'translated'`. -/
inductive TextKind where
  | original
  | translated
deriving DecidableEq

/-- `prev.translatedText || prev.text`: empty or absent translations fall
back to the original text. -/
def jsOrElse (o : Option String) (d : String) : String :=
  match o with
  | none => d
  | some s => if s = "" then d else s

/-- The selected text of the previous group member, as used for the
sentence-end and comma tests. -/
def selPrevText (ty : TextKind) (s : TranscriptionSegment) : String :=
  match ty with
  | .original => s.text
  | .translated => jsOrElse s.translatedText s.text

/-- `/[.!?。！？]$/.test(prevText.trim())`. -/
def isSentenceEnd (t : String) : Bool :=
  match (jsTrim t).data.getLast? with
  | some c => (c == '.') || (c == '!') || (c == '?') || (c == '。') || (c == '！') || (c == '？')
  | none => false

/-- `/[,，]$/.test(prevText.trim())`. -/
def hasComma (t : String) : Bool :=
  match (jsTrim t).data.getLast? with
  | some c => (c == ',') || (c == '，')
  | none => false

/-- The accumulated character count of the current group:
`currentGroup.reduce((acc, seg) => acc + (...), 0)`.  JS `.length` counts
UTF-16 units; the transcript text of interest lies in the BMP, where this
agrees with counting characters. -/
def groupChars (ty : TextKind) (cur : List TranscriptionSegment) : ℕ :=
  cur.foldl
    (fun acc seg =>
      acc + (match ty with
             | .translated => ((seg.translatedText.getD "").data).length
             | .original => seg.text.data.length))
    0

/-- The cut decision of the grouping loop: sentence end, a pause longer
than 0.8s, or an over-long group (more than 45 chars) at a moderate pause
(0.3s) or after a comma. -/
def cutDecision (ty : TextKind) (cur : List TranscriptionSegment)
    (prev s : TranscriptionSegment) : Bool :=
  let prevEnd := parseTimestampToSeconds prev.endTime
  let currStart := parseTimestampToSeconds s.startTime
  let prevText := selPrevText ty prev
  isSentenceEnd prevText || decide (currStart - prevEnd > 8 / 10) ||
    (decide (groupChars ty cur > 45) &&
      (decide (currStart - prevEnd > 3 / 10) || hasComma prevText))

/-- The grouping loop with a non-empty current group `cur`: each further
segment either closes the group (cut) or is appended; the final group is
flushed at the end of input. -/
def groupGo (ty : TextKind) (cur : List TranscriptionSegment) :
    List TranscriptionSegment → List (List TranscriptionSegment)
  | [] => [cur]
  | s :: rest =>
    match cur.getLast? with
    | none => groupGo ty [s] rest
    | some prev =>
      if cutDecision ty cur prev s then cur :: groupGo ty [s] rest
      else groupGo ty (cur ++ [s]) rest

/-- The CaptionGrouper: the `groups` produced by the shared grouping loop
of `exportAsVTT`/`exportAsTTML` (the first iteration of the source's
`forEach` always just seeds the current group). -/
def groupCues (ty : TextKind) : List TranscriptionSegment → List (List TranscriptionSegment)
  | [] => []
  | s :: rest => groupGo ty [s] rest

/-! ## JSON values and `JSON.parse`

A model of the JSON grammar accepted by JS `JSON.parse`, needed by
`tryRepairJson`.  All recursions are fuel-indexed structural recursions so
that the kernel can evaluate them; the fuel supplied is always amply above
the recursion depth a parse of the given input can reach (each unit of
fuel accompanies at least one consumed character, and the bound passed in
is more than twice the input length). -/

/-- A parsed JSON value. -/
inductive Json where
  | jnull
  | bool (b : Bool)
  | num (q : ℚ)
  | str (s : String)
  | arr (elems : List Json)
  | obj (fields : List (String × Json))

/-- JSON insignificant whitespace (space, tab, LF, CR). -/
def jsonWs (c : Char) : Bool := (c == ' ') || (c == '\t') || (c == '\n') || (c == '\r')

/-- Skip JSON whitespace. -/
def skipWs (l : List Char) : List Char := l.dropWhile jsonWs

/-- Hexadecimal digit value. -/
def hexVal (c : Char) : Option ℕ :=
  if 48 ≤ c.toNat ∧ c.toNat ≤ 57 then some (c.toNat - 48)
  else if 97 ≤ c.toNat ∧ c.toNat ≤ 102 then some (c.toNat - 87)
  else if 65 ≤ c.toNat ∧ c.toNat ≤ 70 then some (c.toNat - 55)
  else none

/-- Single-character JSON string escapes. -/
def escChar (c : Char) : Option Char :=
  if c = '"' then some '"'
  else if c = '\\' then some '\\'
  else if c = '/' then some '/'
  else if c = 'b' then some (Char.ofNat 8)
  else if c = 'f' then some (Char.ofNat 12)
  else if c = 'n' then some '\n'
  else if c = 'r' then some '\r'
  else if c = 't' then some '\t'
  else none

/-- JSON string body parser, entered after the opening quote; returns the
content and the suffix after the closing quote.  Surrogate-pair `\u`
escapes are out of scope (such text appears in no input under
verification); a lone `\uXXXX` maps through `Char.ofNat`. -/
def pStrChars : ℕ → List Char → Option (List Char × List Char)
  | 0, _ => none
  | _, [] => none
  | fuel + 1, c :: r =>
    if c = '"' then some ([], r)
    else if c = '\\' then
      match r with
      | [] => none
      | e :: r2 =>
        if e = 'u' then
          match r2 with
          | a :: b :: c2 :: d :: r3 =>
            match hexVal a, hexVal b, hexVal c2, hexVal d with
            | some ha, some hb, some hc, some hd =>
              match pStrChars fuel r3 with
              | some (cs, rest) => some (Char.ofNat (4096 * ha + 256 * hb + 16 * hc + hd) :: cs, rest)
              | none => none
            | _, _, _, _ => none
          | _ => none
        else
          match escChar e with
          | some ec =>
            match pStrChars fuel r2 with
            | some (cs, rest) => some (ec :: cs, rest)
            | none => none
          | none => none
    else if c.toNat < 32 then none
    else
      match pStrChars fuel r with
      | some (cs, rest) => some (c :: cs, rest)
      | none => none

/-- JSON number parser: `-? (0 | [1-9][0-9]*) (. [0-9]+)? ([eE][+-]?[0-9]+)?`.
A trailing `.`/`e` with no digits is left unconsumed; the leftover then
fails in the surrounding context exactly as `JSON.parse` rejects it. -/
def pNumber (l : List Char) : Option (ℚ × List Char) :=
  let sl : ℚ × List Char := match l with
    | '-' :: t => (-1, t)
    | _ => (1, l)
  match sl.2 with
  | [] => none
  | c :: r =>
    if !isDigitC c then none
    else
      let ir : List Char × List Char :=
        if c = '0' then ([c], r) else (c :: (spanDigits r).1, (spanDigits r).2)
      let fr : ℚ × List Char :=
        match ir.2 with
        | '.' :: t =>
          let fd := (spanDigits t).1
          if fd = [] then (0, ir.2) else (fracValQ fd, (spanDigits t).2)
        | _ => (0, ir.2)
      let er : ℤ × List Char :=
        match parseExpR fr.2 with
        | some e => e
        | none => (0, fr.2)
      some (pow10 er.1 (sl.1 * ((natVal ir.1 : ℚ) + fr.1)), er.2)

/-- Results of the JSON recursive-descent parser. -/
inductive PRes where
  | v (j : Json)
  | elems (es : List Json)
  | fields (fs : List (String × Json))

/-- Modes of the JSON recursive-descent parser: a value, the element list
of a non-empty array, or the field list of a non-empty object. -/
inductive PMode where
  | val
  | arrElems
  | objFields

/-- Check that `pre` is a prefix and return the remainder. -/
def stripPre (pre l : List Char) : Option (List Char) :=
  if pre.isPrefixOf l then some (l.drop pre.length) else none

/-- The JSON recursive-descent parser, one fuel-indexed function covering
values, array element lists and object field lists. -/
def pStep : ℕ → PMode → List Char → Option (PRes × List Char)
  | 0, _, _ => none
  | fuel + 1, .val, l =>
    match skipWs l with
    | [] => none
    | c :: r =>
      if c = Char.ofNat 123 then
        match skipWs r with
        | c2 :: r3 =>
          if c2 = Char.ofNat 125 then some (.v (.obj []), r3)
          else
            match pStep fuel .objFields (c2 :: r3) with
            | some (.fields fs, rest) => some (.v (.obj fs), rest)
            | _ => none
        | [] => none
      else if c = '[' then
        match skipWs r with
        | ']' :: r3 => some (.v (.arr []), r3)
        | l2 =>
          match pStep fuel .arrElems l2 with
          | some (.elems es, rest) => some (.v (.arr es), rest)
          | _ => none
      else if c = '"' then
        match pStrChars (r.length + 1) r with
        | some (cs, rest) => some (.v (.str ⟨cs⟩), rest)
        | none => none
      else if c = 't' then
        match stripPre ("rue".data) r with
        | some rest => some (.v (.bool true), rest)
        | none => none
      else if c = 'f' then
        match stripPre ("alse".data) r with
        | some rest => some (.v (.bool false), rest)
        | none => none
      else if c = 'n' then
        match stripPre ("ull".data) r with
        | some rest => some (.v .jnull, rest)
        | none => none
      else
        match pNumber (c :: r) with
        | some (q, rest) => some (.v (.num q), rest)
        | none => none
  | fuel + 1, .arrElems, l =>
    match pStep fuel .val l with
    | some (.v j, r) =>
      (match skipWs r with
       | ',' :: r2 =>
         match pStep fuel .arrElems r2 with
         | some (.elems es, rest) => some (.elems (j :: es), rest)
         | _ => none
       | ']' :: r2 => some (.elems [j], r2)
       | _ => none)
    | _ => none
  | fuel + 1, .objFields, l =>
    match skipWs l with
    | '"' :: r =>
      (match pStrChars (r.length + 1) r with
       | some (key, r2) =>
         (match skipWs r2 with
          | ':' :: r3 =>
            (match pStep fuel .val r3 with
             | some (.v j, r4) =>
               (match skipWs r4 with
                | ',' :: r6 =>
                  (match pStep fuel .objFields r6 with
                   | some (.fields fs, rest) => some (.fields ((⟨key⟩, j) :: fs), rest)
                   | _ => none)
                | c :: r6 =>
                  if c = Char.ofNat 125 then some (.fields [(⟨key⟩, j)], r6) else none
                | [] => none)
             | _ => none)
          | _ => none)
       | none => none)
    | _ => none

/-- `JSON.parse` on a character list: parse one value and require only
whitespace to remain. -/
def jsonParseL (l : List Char) : Option Json :=
  match pStep (2 * l.length + 4) .val l with
  | some (.v j, rest) => if skipWs rest = [] then some j else none
  | _ => none

/-- Field lookup on a parsed object; with duplicate keys the later binding
wins, as in JS. -/
def objGet (fields : List (String × Json)) (k : String) : Option Json :=
  match fields.reverse.find? (fun f => f.1 == k) with
  | some f => some f.2
  | none => none

/-- `parsed.segments && Array.isArray(parsed.segments)`: the check applied
by the parse strategies of `tryRepairJson`.  A non-object has no
`segments` property; an empty array is truthy and accepted. -/
def getSegments : Json → Option (List Json)
  | .obj fields =>
    (match objGet fields ("segments") with
     | some (.arr es) => some es
     | _ => none)
  | _ => none

/-! ## A small regex engine

A backtracking matcher with JS semantics (leftmost match, alternation
prefers the left branch, quantifiers are greedy), sufficient for the
segment-scraping pattern of `tryRepairJson`.  Captures are recorded on
group exit; an unset group models an `undefined` capture. -/

/-- Regex abstract syntax: literals, character classes (`neg` for `[^…]`),
`.` (any char except line terminators), `\s`, sequencing, alternation,
greedy `*`/`+`/`?`, and numbered capture groups. -/
inductive Rx where
  | eps
  | lit (c : Char)
  | cls (neg : Bool) (cs : List Char)
  | anyc
  | ws
  | seq (a b : Rx)
  | alt (a b : Rx)
  | star (r : Rx)
  | plus (r : Rx)
  | opt (r : Rx)
  | grp (i : ℕ) (r : Rx)

/-- Capture assignments, most recent first. -/
def Caps := List (ℕ × List Char)

/-- Look up a capture group (`undefined` when unset). -/
def capLookup (caps : Caps) (i : ℕ) : Option (List Char) :=
  match List.find? (fun p => p.1 == i) caps with
  | some p => some p.2
  | none => none

/-- JS `.` without the `s` flag: any char except the four line
terminators. -/
def rxAnyOk (c : Char) : Bool :=
  !((c == '\n') || (c == '\r') || (c.toNat == 0x2028) || (c.toNat == 0x2029))

/-- All ways a regex can match a prefix of `l`, in JS backtracking
priority order; each result is the unconsumed suffix with the captures.
Fuel-indexed; every unit of fuel accompanies descent into a subterm or a
quantifier iteration that consumed input, and callers supply fuel far
above what a match on the given input can use. -/
def rxMatch : ℕ → Rx → List Char → Caps → List (List Char × Caps)
  | 0, _, _, _ => []
  | _ + 1, .eps, l, caps => [(l, caps)]
  | _ + 1, .lit c, l, caps =>
    (match l with
     | x :: xs => if x = c then [(xs, caps)] else []
     | [] => [])
  | _ + 1, .cls neg cs, l, caps =>
    (match l with
     | x :: xs => if (cs.contains x) ≠ neg then [(xs, caps)] else []
     | [] => [])
  | _ + 1, .anyc, l, caps =>
    (match l with
     | x :: xs => if rxAnyOk x then [(xs, caps)] else []
     | [] => [])
  | _ + 1, .ws, l, caps =>
    (match l with
     | x :: xs => if jsWhitespace x then [(xs, caps)] else []
     | [] => [])
  | fuel + 1, .seq a b, l, caps =>
    (rxMatch fuel a l caps).flatMap (fun rc => rxMatch fuel b rc.1 rc.2)
  | fuel + 1, .alt a b, l, caps => rxMatch fuel a l caps ++ rxMatch fuel b l caps
  | fuel + 1, .opt a, l, caps => rxMatch fuel a l caps ++ [(l, caps)]
  | fuel + 1, .star a, l, caps =>
    ((rxMatch fuel a l caps).flatMap (fun rc =>
        if rc.1.length < l.length then rxMatch fuel (.star a) rc.1 rc.2 else [rc]))
      ++ [(l, caps)]
  | fuel + 1, .plus a, l, caps =>
    (rxMatch fuel a l caps).flatMap (fun rc =>
      if rc.1.length < l.length then rxMatch fuel (.star a) rc.1 rc.2 else [rc])
  | fuel + 1, .grp i a, l, caps =>
    (rxMatch fuel a l caps).map (fun rc =>
      (rc.1, ((i, l.take (l.length - rc.1.length)) :: rc.2 : Caps)))

/-- Structural size of a pattern, used to provision matcher fuel. -/
def rxSize : Rx → ℕ
  | .eps | .lit _ | .cls _ _ | .anyc | .ws => 1
  | .seq a b | .alt a b => rxSize a + rxSize b + 1
  | .star a | .plus a | .opt a | .grp _ a => rxSize a + 1

/-- Fuel that amply covers any match attempt of `r` on `l`. -/
def rxFuel (r : Rx) (l : List Char) : ℕ := (rxSize r + 2) * (l.length + 2)

/-- The first match of `r` at the earliest possible start position within
`l`, as `RegExp.prototype.exec`: returns the captures and the suffix
following the matched substring. -/
def rxSearch (r : Rx) : List Char → Option (Caps × List Char)
  | [] =>
    (match (rxMatch (rxFuel r []) r [] []).head? with
     | some rc => some (rc.2, rc.1)
     | none => none)
  | c :: t =>
    match (rxMatch (rxFuel r (c :: t)) r (c :: t) []).head? with
    | some rc => some (rc.2, rc.1)
    | none => rxSearch r t

/-- The `while ((match = regex.exec(trimmed)) !== null)` loop of a global
regex: successive non-overlapping matches.  The patterns used here cannot
match the empty string (each starts with a mandatory literal), so every
iteration consumes input and the input length bounds the match count. -/
def rxExecAll (fuel : ℕ) (r : Rx) (l : List Char) : List Caps :=
  match fuel with
  | 0 => []
  | fuel + 1 =>
    match rxSearch r l with
    | none => []
    | some (caps, rest) => caps :: rxExecAll fuel r rest

/-- Sequence a list of regexes. -/
def rxSeq (rs : List Rx) : Rx := rs.foldr .seq .eps

/-- A literal string pattern. -/
def rxLit (s : String) : Rx := rxSeq (s.data.map .lit)

/-- The quote character, written numerically for uniformity with the
apostrophe below. -/
def quoteC : Char := Char.ofNat 34

/-- The apostrophe character. -/
def aposC : Char := Char.ofNat 39

/-- The segment-scraping pattern of `tryRepairJson` in
`src/unnamed/part_001` (line 161): an object with `startTime`, `endTime`
and `text` keys in that order, tolerating stray quotes around the colon,
unquoted time values, and single- or double-quoted text. -/
def segmentRegex : Rx :=
  rxSeq
    [ .lit (Char.ofNat 123), .star .ws,
      rxLit ("\"startTime\""), .star .ws, .opt (.lit quoteC), .star .ws, .lit ':', .star .ws,
      .opt (.lit quoteC), .grp 1 (.plus (.cls true [quoteC, ','])), .opt (.lit quoteC),
      .star .ws, .lit ',', .star .ws,
      rxLit ("\"endTime\""), .star .ws, .opt (.lit quoteC), .star .ws, .lit ':', .star .ws,
      .opt (.lit quoteC), .grp 2 (.plus (.cls true [quoteC, ','])), .opt (.lit quoteC),
      .star .ws, .lit ',', .star .ws,
      rxLit ("\"text\""), .star .ws, .opt (.lit quoteC), .star .ws, .lit ':', .star .ws,
      .alt
        (rxSeq [.lit quoteC,
                .grp 3 (.star (.alt (.cls true [quoteC, '\\']) (.seq (.lit '\\') .anyc))),
                .lit quoteC])
        (rxSeq [.lit aposC,
                .grp 4 (.star (.alt (.cls true [aposC, '\\']) (.seq (.lit '\\') .anyc))),
                .lit aposC]) ]

/-! ## JSONRepairer (src/unnamed/part_001, `tryRepairJson`) -/

/-- Sequential left-to-right non-overlapping replacement of a fixed
pattern (JS `.replace(/pat/g, rep)` for a literal pattern), fuel-indexed
on the input length. -/
def replaceAllAux (fuel : ℕ) (pat rep l : List Char) : List Char :=
  match fuel, l with
  | 0, l => l
  | _ + 1, [] => []
  | fuel + 1, c :: t =>
    if pat ≠ [] ∧ pat.isPrefixOf (c :: t) then
      rep ++ replaceAllAux fuel pat rep ((c :: t).drop pat.length)
    else c :: replaceAllAux fuel pat rep t

/-- Sequential global replacement of a literal pattern. -/
def replaceAll (pat rep l : List Char) : List Char :=
  replaceAllAux (l.length + 1) pat rep l

/-- The unescaping step of the regex fallback:
`JSON.parse('"' + rawText.replace(/"/g, '\"') + '"')`, falling back to
literal replacement of `\"`, `\'` and `\\` when that parse fails. -/
def unescapeText (raw : List Char) : List Char :=
  let escaped := replaceAll [quoteC] ['\\', quoteC] raw
  match jsonParseL (quoteC :: (escaped ++ [quoteC])) with
  | some (.str s) => s.data
  | _ =>
    replaceAll ['\\', '\\'] ['\\']
      (replaceAll ['\\', aposC] [aposC]
        (replaceAll ['\\', quoteC] [quoteC] raw))

/-- Build the record pushed for one regex match:
`{startTime: match[1], endTime: match[2], text: unescapedText}` where
`rawText` is `match[3]` when that group participated, else `match[4]`. -/
def recordOfCaps (caps : Caps) : Json :=
  let m1 := (capLookup caps 1).getD []
  let m2 := (capLookup caps 2).getD []
  let rawText :=
    match capLookup caps 3 with
    | some t => t
    | none => (capLookup caps 4).getD []
  Json.obj [("startTime", .str ⟨m1⟩), ("endTime", .str ⟨m2⟩), ("text", .str ⟨unescapeText rawText⟩)]

/-- Strategy 3 of `tryRepairJson`: all regex matches over the trimmed
text, one record per match. -/
def regexExtract (t : List Char) : List Json :=
  (rxExecAll (t.length + 1) segmentRegex t).map recordOfCaps

/-- Strategy 1 of `tryRepairJson`: direct `JSON.parse`, accepted when the
parsed value carries a `segments` array. -/
def repairStep1 (t : List Char) : Option (List Json) :=
  match jsonParseL t with
  | some p => getSegments p
  | none => none

/-- The index of the last `}` in the text (`lastIndexOf`). -/
def lastBraceIdx (t : List Char) : Option ℕ :=
  match (t.enum.filter (fun p => p.2 = Char.ofNat 125)).getLast? with
  | some p => some p.1
  | none => none

/-- Strategy 2 of `tryRepairJson`: truncate after the last `}`, append
`]}`, and re-parse. -/
def repairStep2 (t : List Char) : Option (List Json) :=
  match lastBraceIdx t with
  | none => none
  | some i =>
    match jsonParseL (t.take (i + 1) ++ [']', Char.ofNat 125]) with
    | some p => getSegments p
    | none => none

/-- The error message thrown when every strategy fails. -/
def repairErrorMsg : String := "Response structure invalid and could not be repaired."

/-- `tryRepairJson` from `src/unnamed/part_001` (lines 134-185), returning
the recovered `segments` list (the source returns the enclosing object;
its sole consumer immediately projects `parsed.segments`): direct parse,
then truncation repair, then regex extraction, else throw. -/
def tryRepairJson (jsonString : String) : Except String (List Json) :=
  let trimmed := jsTrimL jsonString.data
  match repairStep1 trimmed with
  | some segs => .ok segs
  | none =>
    match repairStep2 trimmed with
    | some segs => .ok segs
    | none =>
      let segs := regexExtract trimmed
      if segs.isEmpty then .error repairErrorMsg else .ok segs

/-! ## Character and list lemmas -/

theorem char_ne_of_toNat_ne {c d : Char} (h : c.toNat ≠ d.toNat) : c ≠ d :=
  fun he => h (he ▸ rfl)

theorem keepTimeChar_iff (c : Char) :
    keepTimeChar c = true ↔ (48 ≤ c.toNat ∧ c.toNat ≤ 57) ∨ c.toNat = 58 ∨ c.toNat = 46 := by
  simp only [keepTimeChar, isDigitC, Bool.or_eq_true, Bool.and_eq_true, decide_eq_true_eq,
    Nat.beq_eq_true_eq, or_assoc]

theorem keep_not_ws {c : Char} (h : keepTimeChar c = true) : jsWhitespace c = false := by
  rw [keepTimeChar_iff] at h
  rw [Bool.eq_false_iff]
  intro hw
  simp only [jsWhitespace] at hw
  simp at hw
  omega

theorem keep_not_comma {c : Char} (h : keepTimeChar c = true) : c ≠ ',' := by
  rw [keepTimeChar_iff] at h
  have h44 : (',' : Char).toNat = 44 := rfl
  exact char_ne_of_toNat_ne (by omega)

theorem digit_keep {c : Char} (h : isDigitC c = true) : keepTimeChar c = true := by
  simp only [keepTimeChar, Bool.or_eq_true]
  exact Or.inl (Or.inl h)

theorem digit_not_colon {c : Char} (h : isDigitC c = true) : c ≠ ':' := by
  simp only [isDigitC, Bool.and_eq_true, decide_eq_true_eq] at h
  have h58 : (':' : Char).toNat = 58 := rfl
  exact char_ne_of_toNat_ne (by omega)

theorem dropWhile_eq_self_of {p : Char → Bool} {l : List Char}
    (h : ∀ c ∈ l, p c = false) : l.dropWhile p = l := by
  cases l with
  | nil => rfl
  | cons c t => simp [List.dropWhile_cons, h c (List.mem_cons_self c t)]

theorem jsTrimL_eq_self {l : List Char} (h : ∀ c ∈ l, jsWhitespace c = false) :
    jsTrimL l = l := by
  unfold jsTrimL
  rw [dropWhile_eq_self_of h, dropWhile_eq_self_of (by simpa using h), List.reverse_reverse]

theorem map_commaToDot_eq_self {l : List Char} (h : ∀ c ∈ l, c ≠ ',') :
    l.map commaToDot = l := by
  conv_rhs => rw [← List.map_id l]
  exact List.map_congr_left (fun c hc => by simp [commaToDot, h c hc])

theorem cleanTs_eq_self {l : List Char} (h : ∀ c ∈ l, keepTimeChar c = true) :
    cleanTs l = l := by
  unfold cleanTs
  rw [jsTrimL_eq_self (fun c hc => keep_not_ws (h c hc)),
    map_commaToDot_eq_self (fun c hc => keep_not_comma (h c hc)),
    List.filter_eq_self.mpr h]

theorem mem_dropWhile_of_mem {p : Char → Bool} {l : List Char} {c : Char}
    (hc : c ∈ l) (hp : p c = false) : c ∈ l.dropWhile p := by
  induction l with
  | nil => cases hc
  | cons a t ih =>
    rw [List.dropWhile_cons]
    rcases List.mem_cons.mp hc with h1 | h1
    · subst h1; simp [hp]
    · by_cases ha : p a = true
      · simp [ha]; exact ih h1
      · simp only [Bool.of_not_eq_true ha, if_false]
        exact List.mem_cons_of_mem a h1

theorem mem_jsTrimL_of_mem {l : List Char} {c : Char}
    (hc : c ∈ l) (hp : jsWhitespace c = false) : c ∈ jsTrimL l := by
  unfold jsTrimL
  rw [List.mem_reverse]
  exact mem_dropWhile_of_mem (by rw [List.mem_reverse]; exact mem_dropWhile_of_mem hc hp) hp

theorem mem_cleanTs_of_mem {l : List Char} {c : Char}
    (hc : c ∈ l) (hk : keepTimeChar c = true) (hcomma : commaToDot c = c) :
    c ∈ cleanTs l := by
  unfold cleanTs
  rw [List.mem_filter]
  refine ⟨?_, hk⟩
  have : c ∈ (jsTrimL l) := mem_jsTrimL_of_mem hc (keep_not_ws hk)
  rw [← hcomma]
  exact List.mem_map_of_mem commaToDot this

theorem takeWhile_append_of_all {p : Char → Bool} {A B : List Char}
    (h : ∀ c ∈ A, p c = true) : (A ++ B).takeWhile p = A ++ B.takeWhile p := by
  induction A with
  | nil => rfl
  | cons a t ih =>
    simp only [List.cons_append, List.takeWhile_cons, h a (List.mem_cons_self a t), if_true,
      List.cons.injEq, true_and]
    exact ih (fun c hc => h c (List.mem_cons_of_mem a hc))

theorem dropWhile_append_of_all {p : Char → Bool} {A B : List Char}
    (h : ∀ c ∈ A, p c = true) : (A ++ B).dropWhile p = B.dropWhile p := by
  induction A with
  | nil => rfl
  | cons a t ih =>
    simp only [List.cons_append, List.dropWhile_cons, h a (List.mem_cons_self a t), if_true]
    exact ih (fun c hc => h c (List.mem_cons_of_mem a hc))

theorem takeWhile_eq_self_of_all {p : Char → Bool} {A : List Char}
    (h : ∀ c ∈ A, p c = true) : A.takeWhile p = A := by
  have := takeWhile_append_of_all (B := []) h
  simpa using this

theorem dropWhile_eq_nil_of_all {p : Char → Bool} {A : List Char}
    (h : ∀ c ∈ A, p c = true) : A.dropWhile p = [] := by
  have := dropWhile_append_of_all (B := []) h
  simpa using this

theorem splitOnColon_ne_nil (l : List Char) : splitOnColon l ≠ [] := by
  induction l with
  | nil => simp [splitOnColon]
  | cons c t ih =>
    unfold splitOnColon
    by_cases hc : c = ':'
    · simp [hc]
    · simp only [hc, if_false]
      cases h : splitOnColon t with
      | nil => simp
      | cons g gs => simp

theorem splitOnColon_append {A R : List Char} (h : ':' ∉ A) :
    splitOnColon (A ++ ':' :: R) = A :: splitOnColon R := by
  induction A with
  | nil => simp [splitOnColon]
  | cons c t ih =>
    have hc : c ≠ ':' := fun he => h (he ▸ List.mem_cons_self c t)
    have ht : ':' ∉ t := fun hm => h (List.mem_cons_of_mem c hm)
    rw [List.cons_append]
    simp only [splitOnColon, if_neg hc, ih ht]

theorem splitOnColon_of_not_mem {A : List Char} (h : ':' ∉ A) : splitOnColon A = [A] := by
  induction A with
  | nil => rfl
  | cons c t ih =>
    have hc : c ≠ ':' := fun he => h (he ▸ List.mem_cons_self c t)
    have ht : ':' ∉ t := fun hm => h (List.mem_cons_of_mem c hm)
    unfold splitOnColon
    simp only [hc, if_false, ih ht]

theorem mem_of_mem_splitOnColon {l : List Char} {p : List Char} {c : Char}
    (hp : p ∈ splitOnColon l) (hc : c ∈ p) : c ∈ l := by
  induction l generalizing p with
  | nil =>
    simp [splitOnColon] at hp
    subst hp; cases hc
  | cons a t ih =>
    unfold splitOnColon at hp
    by_cases ha : a = ':'
    · simp only [ha, if_true, List.mem_cons] at hp
      rcases hp with h1 | h1
      · subst h1; cases hc
      · exact List.mem_cons_of_mem _ (ih h1 hc)
    · simp only [ha, if_false] at hp
      cases hsp : splitOnColon t with
      | nil => exact absurd hsp (splitOnColon_ne_nil t)
      | cons g gs =>
        rw [hsp] at hp
        have hg : g ∈ splitOnColon t := by rw [hsp]; exact List.mem_cons_self g gs
        rcases List.mem_cons.mp hp with h1 | h1
        · subst h1
          rcases List.mem_cons.mp hc with h2 | h2
          · exact h2 ▸ List.mem_cons_self a t
          · exact List.mem_cons_of_mem _ (ih hg h2)
        · have hgs : p ∈ splitOnColon t := by rw [hsp]; exact List.mem_cons_of_mem g h1
          exact List.mem_cons_of_mem _ (ih hgs hc)

/-! ## Decimal rendering lemmas -/

theorem natVal_from (a : ℕ) (l : List Char) :
    l.foldl (fun x c => 10 * x + dval c) a = a * 10 ^ l.length + natVal l := by
  induction l generalizing a with
  | nil => simp [natVal]
  | cons c t ih =>
    simp only [List.foldl_cons, List.length_cons, natVal]
    rw [ih (10 * a + dval c), ih (10 * 0 + dval c)]
    ring

theorem natVal_append_single (A : List Char) (c : Char) :
    natVal (A ++ [c]) = 10 * natVal A + dval c := by
  unfold natVal
  rw [List.foldl_append]
  simp

theorem natVal_replicate_zero (k : ℕ) (l : List Char) :
    natVal (List.replicate k '0' ++ l) = natVal l := by
  induction k with
  | zero => simp
  | succ k ih =>
    rw [List.replicate_succ, List.cons_append]
    unfold natVal at *
    simp only [List.foldl_cons]
    have : dval '0' = 0 := rfl
    simpa [this] using ih

theorem natVal_padStart (k : ℕ) (l : List Char) :
    natVal (padStart k '0' l) = natVal l := natVal_replicate_zero _ l

theorem padStart_length (k : ℕ) (c : Char) (l : List Char) :
    (padStart k c l).length = max k l.length := by
  simp [padStart]
  omega

theorem digitChar_toNat {n : ℕ} (h : n < 10) : (Char.ofNat (48 + n)).toNat = 48 + n := by
  interval_cases n <;> rfl

theorem digitChar_isDigit {n : ℕ} (h : n < 10) : isDigitC (Char.ofNat (48 + n)) = true := by
  simp only [isDigitC, Bool.and_eq_true, decide_eq_true_eq, digitChar_toNat h]
  omega

theorem dval_digitChar {n : ℕ} (h : n < 10) : dval (Char.ofNat (48 + n)) = n := by
  simp [dval, digitChar_toNat h]

theorem natDigitsAux_spec :
    ∀ (fuel n : ℕ), n < fuel →
      natDigitsAux fuel n ≠ [] ∧ (∀ c ∈ natDigitsAux fuel n, isDigitC c = true) ∧
        natVal (natDigitsAux fuel n) = n ∧
        (∀ k, 1 ≤ k → n < 10 ^ k → (natDigitsAux fuel n).length ≤ k) := by
  intro fuel
  induction fuel with
  | zero => intro n h; omega
  | succ fuel ih =>
    intro n h
    by_cases h10 : n < 10
    · refine ⟨by simp [natDigitsAux, h10], ?_, ?_, ?_⟩
      · intro c hc
        simp only [natDigitsAux, h10, if_true, List.mem_singleton] at hc
        subst hc
        exact digitChar_isDigit h10
      · simp only [natDigitsAux, h10, if_true]
        unfold natVal
        simp [dval_digitChar h10]
      · intro k hk _
        simp only [natDigitsAux, h10, if_true, List.length_singleton]
        omega
    · have hdiv : n / 10 < fuel := by omega
      obtain ⟨ihne, ihdig, ihval, ihlen⟩ := ih (n / 10) hdiv
      have hmod : n % 10 < 10 := Nat.mod_lt n (by norm_num)
      refine ⟨by simp [natDigitsAux, h10], ?_, ?_, ?_⟩
      · intro c hc
        simp only [natDigitsAux, h10, if_false, List.mem_append, List.mem_singleton] at hc
        rcases hc with h1 | h1
        · exact ihdig c h1
        · subst h1; exact digitChar_isDigit hmod
      · simp only [natDigitsAux, h10, if_false]
        rw [natVal_append_single, ihval, dval_digitChar hmod]
        omega
      · intro k hk hnk
        simp only [natDigitsAux, h10, if_false, List.length_append, List.length_singleton]
        have hk2 : 2 ≤ k := by
          by_contra hc
          have : k = 1 := by omega
          subst this
          simp at hnk
          omega
        have : n / 10 < 10 ^ (k - 1) := by
          rw [Nat.div_lt_iff_lt_mul (by norm_num)]
          calc n < 10 ^ k := hnk
          _ = 10 ^ (k - 1) * 10 := by
              rw [← pow_succ]
              congr 1
              omega
        have := ihlen (k - 1) (by omega) this
        omega

theorem natDigits_ne_nil (n : ℕ) : natDigits n ≠ [] :=
  (natDigitsAux_spec (n + 1) n (Nat.lt_succ_self n)).1

theorem natDigits_all_digit (n : ℕ) : ∀ c ∈ natDigits n, isDigitC c = true :=
  (natDigitsAux_spec (n + 1) n (Nat.lt_succ_self n)).2.1

theorem natVal_natDigits (n : ℕ) : natVal (natDigits n) = n :=
  (natDigitsAux_spec (n + 1) n (Nat.lt_succ_self n)).2.2.1

theorem natDigits_length_le (n k : ℕ) (hk : 1 ≤ k) (h : n < 10 ^ k) :
    (natDigits n).length ≤ k :=
  (natDigitsAux_spec (n + 1) n (Nat.lt_succ_self n)).2.2.2 k hk h

/-- `String(i)` of a natural number is its digit string. -/
theorem intToChars_natCast (n : ℕ) : intToChars (n : ℤ) = natDigits n := by
  simp [intToChars]

theorem padStart_all_digit (k n : ℕ) :
    ∀ c ∈ padStart k '0' (natDigits n), isDigitC c = true := by
  intro c hc
  simp only [padStart, List.mem_append] at hc
  rcases hc with h1 | h1
  · rw [List.eq_of_mem_replicate h1]
    rfl
  · exact natDigits_all_digit n c h1

theorem padStart_digits_no_colon (k n : ℕ) : ':' ∉ padStart k '0' (natDigits n) :=
  fun hm => digit_not_colon (padStart_all_digit k n ':' hm) rfl

theorem natVal_padStart_digits (k n : ℕ) : natVal (padStart k '0' (natDigits n)) = n := by
  rw [natVal_padStart, natVal_natDigits]

theorem padStart_ne_nil (k : ℕ) (c : Char) {l : List Char} (h : l ≠ []) :
    padStart k c l ≠ [] := by
  simp only [padStart]
  intro he
  rcases List.append_eq_nil.mp he with ⟨_, h2⟩
  exact h h2

theorem pad3_length {d : ℕ} (hd : d < 1000) :
    (padStart 3 '0' (natDigits d)).length = 3 := by
  rw [padStart_length]
  have := natDigits_length_le d 3 (by norm_num) (by norm_num; omega)
  omega

/-! ## `parseFloat` evaluation lemmas -/

theorem fracValQ_pad3 {d : ℕ} (hd : d < 1000) :
    fracValQ (padStart 3 '0' (natDigits d)) = (d : ℚ) / 1000 := by
  unfold fracValQ
  rw [pad3_length hd, natVal_padStart_digits]
  norm_num

theorem pow10_zero (v : ℚ) : pow10 0 v = v := by
  simp [pow10]

theorem digit_ne_plus {c : Char} (hc : isDigitC c = true) : c ≠ '+' := by
  simp only [isDigitC, Bool.and_eq_true, decide_eq_true_eq] at hc
  exact char_ne_of_toNat_ne (by have : ('+' : Char).toNat = 43 := rfl; omega)

theorem digit_ne_minus {c : Char} (hc : isDigitC c = true) : c ≠ '-' := by
  simp only [isDigitC, Bool.and_eq_true, decide_eq_true_eq] at hc
  exact char_ne_of_toNat_ne (by have : ('-' : Char).toNat = 45 := rfl; omega)

theorem splitSign_digit {A : List Char} (hA : ∀ c ∈ A, isDigitC c = true)
    (hne : A ≠ []) : splitSign A = (1, A) := by
  obtain ⟨c, t, rfl⟩ := List.exists_cons_of_ne_nil hne
  have hc := hA c (List.mem_cons_self c t)
  simp [splitSign, digit_ne_plus hc, digit_ne_minus hc]

theorem parseDec_digits {A : List Char} (hA : ∀ c ∈ A, isDigitC c = true)
    (hne : A ≠ []) : parseDec A = some ((natVal A : ℚ), []) := by
  unfold parseDec
  simp only [spanDigits]
  rw [takeWhile_eq_self_of_all hA, dropWhile_eq_nil_of_all hA]
  simp [hne]

theorem parseDec_digits_dot {A B : List Char} (hA : ∀ c ∈ A, isDigitC c = true)
    (hne : A ≠ []) (hB : ∀ c ∈ B, isDigitC c = true) :
    parseDec (A ++ '.' :: B) = some ((natVal A : ℚ) + fracValQ B, []) := by
  have hdot : isDigitC '.' = false := rfl
  unfold parseDec
  simp only [spanDigits]
  rw [takeWhile_append_of_all hA, dropWhile_append_of_all hA]
  simp only [List.takeWhile_cons, List.dropWhile_cons, hdot, Bool.false_eq_true, if_false]
  rw [List.append_nil, takeWhile_eq_self_of_all hB, dropWhile_eq_nil_of_all hB]
  simp [hne]

/-- `parseFloat` on a pure non-empty digit string yields its value. -/
theorem jsParseFloat_digits {A : List Char} (hA : ∀ c ∈ A, isDigitC c = true)
    (hne : A ≠ []) : jsParseFloat A = some ((natVal A : ℚ)) := by
  have hnws : ∀ c ∈ A, jsWhitespace c = false := fun c hc => keep_not_ws (digit_keep (hA c hc))
  unfold jsParseFloat
  simp only [dropWhile_eq_self_of hnws, splitSign_digit hA hne, parseDec_digits hA hne,
    parseExp, parseExpR, Option.getD_none, pow10_zero, one_mul]

/-- `parseFloat` on `digits.digits` yields integer plus fraction. -/
theorem jsParseFloat_digits_dot {A B : List Char} (hA : ∀ c ∈ A, isDigitC c = true)
    (hne : A ≠ []) (hB : ∀ c ∈ B, isDigitC c = true) :
    jsParseFloat (A ++ '.' :: B) = some ((natVal A : ℚ) + fracValQ B) := by
  have hkeep : ∀ c ∈ A ++ '.' :: B, keepTimeChar c = true := by
    intro c hc
    rcases List.mem_append.mp hc with h1 | h1
    · exact digit_keep (hA c h1)
    · rcases List.mem_cons.mp h1 with h2 | h2
      · subst h2; rfl
      · exact digit_keep (hB c h2)
  have hnws : ∀ c ∈ A ++ '.' :: B, jsWhitespace c = false :=
    fun c hc => keep_not_ws (hkeep c hc)
  have hne2 : A ++ '.' :: B ≠ [] := by
    intro he
    exact hne (List.append_eq_nil.mp he).1
  have hsign : splitSign (A ++ '.' :: B) = (1, A ++ '.' :: B) := by
    obtain ⟨c, t, hct⟩ := List.exists_cons_of_ne_nil hne
    have hc := hA c (hct ▸ List.mem_cons_self c t)
    rw [hct, List.cons_append]
    simp [splitSign, digit_ne_plus hc, digit_ne_minus hc]
  unfold jsParseFloat
  simp only [dropWhile_eq_self_of hnws, hsign, parseDec_digits_dot hA hne hB,
    parseExp, parseExpR, Option.getD_none, pow10_zero, one_mul]

theorem jsParseFloatOr0_digits {A : List Char} (hA : ∀ c ∈ A, isDigitC c = true)
    (hne : A ≠ []) : jsParseFloatOr0 A = (natVal A : ℚ) := by
  unfold jsParseFloatOr0
  rw [jsParseFloat_digits hA hne]
  rfl

theorem jsParseFloatOr0_digits_dot {A B : List Char} (hA : ∀ c ∈ A, isDigitC c = true)
    (hne : A ≠ []) (hB : ∀ c ∈ B, isDigitC c = true) :
    jsParseFloatOr0 (A ++ '.' :: B) = (natVal A : ℚ) + fracValQ B := by
  unfold jsParseFloatOr0
  rw [jsParseFloat_digits_dot hA hne hB]
  rfl

/-! ## Floor and modulus bridging lemmas -/

theorem floor_natCast_div (n b : ℕ) (hb : 0 < b) :
    ⌊(n : ℚ) / (b : ℚ)⌋ = ((n / b : ℕ) : ℤ) := by
  have hbq : (0 : ℚ) < (b : ℚ) := by exact_mod_cast hb
  rw [Int.floor_eq_iff]
  constructor
  · rw [le_div_iff hbq]
    have h1 : (n / b) * b ≤ n := Nat.div_mul_le_self n b
    exact_mod_cast h1
  · rw [div_lt_iff hbq]
    have h2 : n < (n / b + 1) * b := by
      calc n = b * (n / b) + n % b := (Nat.div_add_mod n b).symm
      _ < b * (n / b) + b := by have := Nat.mod_lt n hb; omega
      _ = (n / b + 1) * b := by ring
    push_cast
    exact_mod_cast h2

theorem jsRound_natCast (n : ℕ) : jsRound ((n : ℚ)) = (n : ℤ) := by
  unfold jsRound
  rw [Int.floor_eq_iff]
  constructor
  · push_cast; linarith
  · push_cast; linarith

theorem jsModZ_natCast (m k : ℕ) : jsModZ ((m : ℤ)) ((k : ℤ)) = ((m % k : ℕ) : ℤ) := by
  simp [jsModZ, Int.tmod]

theorem jsTrunc_eq_floor {q : ℚ} (h : 0 ≤ q) : jsTrunc q = ⌊q⌋ := by
  simp [jsTrunc, not_lt.mpr h]

/-! ## Round-trip: format then parse -/

/-- Shared shorthand for a zero-padded digit block. -/
def padN (k n : ℕ) : List Char := padStart k '0' (natDigits n)

theorem padN_keep (k n : ℕ) : ∀ c ∈ padN k n, keepTimeChar c = true :=
  fun c hc => digit_keep (padStart_all_digit k n c hc)

theorem padN_no_colon (k n : ℕ) : ':' ∉ padN k n := padStart_digits_no_colon k n

theorem padN_ne_nil (k n : ℕ) : padN k n ≠ [] :=
  padStart_ne_nil k '0' (natDigits_ne_nil n)

theorem no_colon_tail (c d : ℕ) : ':' ∉ padN 2 c ++ '.' :: padN 3 d := by
  intro hm
  rcases List.mem_append.mp hm with h1 | h1
  · exact padStart_digits_no_colon 2 c h1
  · rcases List.mem_cons.mp h1 with h2 | h2
    · exact absurd h2 (by decide)
    · exact padStart_digits_no_colon 3 d h2

theorem parse_tail (c d : ℕ) (hd : d < 1000) :
    jsParseFloatOr0 (padN 2 c ++ '.' :: padN 3 d) = (c : ℚ) + (d : ℚ) / 1000 := by
  rw [show padN 2 c = padStart 2 '0' (natDigits c) from rfl,
    show padN 3 d = padStart 3 '0' (natDigits d) from rfl,
    jsParseFloatOr0_digits_dot (padStart_all_digit 2 c)
      (padStart_ne_nil 2 '0' (natDigits_ne_nil c)) (padStart_all_digit 3 d),
    natVal_padStart_digits, fracValQ_pad3 hd]

theorem parse_padN (k a : ℕ) : jsParseFloatOr0 (padN k a) = (a : ℚ) := by
  rw [show padN k a = padStart k '0' (natDigits a) from rfl,
    jsParseFloatOr0_digits (padStart_all_digit k a)
      (padStart_ne_nil k '0' (natDigits_ne_nil a)),
    natVal_padStart_digits]

/-- Parsing a formatted `HH:MM:SS.mmm` string recovers the components. -/
theorem parse_hms (a b c d : ℕ) (hd : d < 1000) :
    timestampToSecondsL
        (padN 2 a ++ ':' :: (padN 2 b ++ ':' :: (padN 2 c ++ '.' :: padN 3 d))) =
      (a : ℚ) * 3600 + (b : ℚ) * 60 + ((c : ℚ) + (d : ℚ) / 1000) := by
  set F := padN 2 a ++ ':' :: (padN 2 b ++ ':' :: (padN 2 c ++ '.' :: padN 3 d)) with hF
  have hkeep : ∀ ch ∈ F, keepTimeChar ch = true := by
    intro ch hch
    rw [hF] at hch
    rcases List.mem_append.mp hch with h1 | h1
    · exact padN_keep 2 a ch h1
    · rcases List.mem_cons.mp h1 with h2 | h2
      · subst h2; rfl
      · rcases List.mem_append.mp h2 with h3 | h3
        · exact padN_keep 2 b ch h3
        · rcases List.mem_cons.mp h3 with h4 | h4
          · subst h4; rfl
          · rcases List.mem_append.mp h4 with h5 | h5
            · exact padN_keep 2 c ch h5
            · rcases List.mem_cons.mp h5 with h6 | h6
              · subst h6; rfl
              · exact padN_keep 3 d ch h6
  have hne : F ≠ [] := by
    rw [hF]
    intro he
    exact padN_ne_nil 2 a (List.append_eq_nil.mp he).1
  have hclean : cleanTs F = F := cleanTs_eq_self hkeep
  have hmem : ¬ (':' ∉ F) := by
    rw [hF]
    simp only [not_not]
    exact List.mem_append.mpr (Or.inr (List.mem_cons_self _ _))
  have hsplit : splitOnColon F = [padN 2 a, padN 2 b, padN 2 c ++ '.' :: padN 3 d] := by
    rw [hF, splitOnColon_append (padN_no_colon 2 a),
      splitOnColon_append (padN_no_colon 2 b),
      splitOnColon_of_not_mem (no_colon_tail c d)]
  unfold timestampToSecondsL
  rw [if_neg hne]
  simp only [hclean, if_neg hmem, hsplit, List.map_cons, List.map_nil,
    parse_padN, parse_tail c d hd]

/-- Parsing a formatted `MM:SS.mmm` string recovers the components. -/
theorem parse_mmss (a c d : ℕ) (hd : d < 1000) :
    timestampToSecondsL (padN 2 a ++ ':' :: (padN 2 c ++ '.' :: padN 3 d)) =
      (a : ℚ) * 60 + ((c : ℚ) + (d : ℚ) / 1000) := by
  set F := padN 2 a ++ ':' :: (padN 2 c ++ '.' :: padN 3 d) with hF
  have hkeep : ∀ ch ∈ F, keepTimeChar ch = true := by
    intro ch hch
    rw [hF] at hch
    rcases List.mem_append.mp hch with h1 | h1
    · exact padN_keep 2 a ch h1
    · rcases List.mem_cons.mp h1 with h2 | h2
      · subst h2; rfl
      · rcases List.mem_append.mp h2 with h3 | h3
        · exact padN_keep 2 c ch h3
        · rcases List.mem_cons.mp h3 with h4 | h4
          · subst h4; rfl
          · exact padN_keep 3 d ch h4
  have hne : F ≠ [] := by
    rw [hF]
    intro he
    exact padN_ne_nil 2 a (List.append_eq_nil.mp he).1
  have hclean : cleanTs F = F := cleanTs_eq_self hkeep
  have hmem : ¬ (':' ∉ F) := by
    rw [hF]
    simp only [not_not]
    exact List.mem_append.mpr (Or.inr (List.mem_cons_self _ _))
  have hsplit : splitOnColon F = [padN 2 a, padN 2 c ++ '.' :: padN 3 d] := by
    rw [hF, splitOnColon_append (padN_no_colon 2 a),
      splitOnColon_of_not_mem (no_colon_tail c d)]
  unfold timestampToSecondsL
  rw [if_neg hne]
  simp only [hclean, if_neg hmem, hsplit, List.map_cons, List.map_nil,
    parse_padN, parse_tail c d hd]

/-- The fixed-hours formatter on an exact millisecond value, in terms of
digit blocks. -/
theorem secondsToTimestampL_ms (n : ℕ) :
    secondsToTimestampL ((n : ℚ) / 1000) =
      padN 2 (n / 3600000) ++ ':' :: (padN 2 (n % 3600000 / 60000) ++
        ':' :: (padN 2 (n % 60000 / 1000) ++ '.' :: padN 3 (n % 1000))) := by
  have hmul : ((n : ℚ) / 1000) * 1000 = (n : ℚ) := by field_simp
  have hround : jsRound (((n : ℚ) / 1000) * 1000) = (n : ℤ) := by
    rw [hmul, jsRound_natCast]
  have hh : ⌊(n : ℚ) / 3600000⌋ = ((n / 3600000 : ℕ) : ℤ) := by
    have := floor_natCast_div n 3600000 (by norm_num)
    rwa [Nat.cast_ofNat] at this
  have hm1 : jsModZ ((n : ℤ)) 3600000 = ((n % 3600000 : ℕ) : ℤ) := by
    have := jsModZ_natCast n 3600000
    rwa [Nat.cast_ofNat] at this
  have hm2 : jsModZ ((n : ℤ)) 60000 = ((n % 60000 : ℕ) : ℤ) := by
    have := jsModZ_natCast n 60000
    rwa [Nat.cast_ofNat] at this
  have hm3 : jsModZ ((n : ℤ)) 1000 = ((n % 1000 : ℕ) : ℤ) := by
    have := jsModZ_natCast n 1000
    rwa [Nat.cast_ofNat] at this
  have hm : ⌊((n % 3600000 : ℕ) : ℚ) / 60000⌋ = ((n % 3600000 / 60000 : ℕ) : ℤ) := by
    have := floor_natCast_div (n % 3600000) 60000 (by norm_num)
    rwa [Nat.cast_ofNat] at this
  have hs : ⌊((n % 60000 : ℕ) : ℚ) / 1000⌋ = ((n % 60000 / 1000 : ℕ) : ℤ) := by
    have := floor_natCast_div (n % 60000) 1000 (by norm_num)
    rwa [Nat.cast_ofNat] at this
  unfold secondsToTimestampL padN
  simp only [hround, Int.cast_natCast, hh, hm1, hm2, hm3, hm, hs, intToChars_natCast]

/-- The hour-folding formatter on an exact millisecond value, in terms of
digit blocks. -/
theorem formatSecondsMMSSL_ms (n : ℕ) :
    formatSecondsMMSSL ((n : ℚ) / 1000) =
      padN 2 (n / 60000) ++ ':' :: (padN 2 (n % 60000 / 1000) ++ '.' :: padN 3 (n % 1000)) := by
  have hv : (0 : ℚ) ≤ (n : ℚ) / 1000 := by positivity
  have hd60 : ((n : ℚ) / 1000) / 60 = (n : ℚ) / 60000 := by ring
  have hm : ⌊(n : ℚ) / 60000⌋ = ((n / 60000 : ℕ) : ℤ) := by
    have := floor_natCast_div n 60000 (by norm_num)
    rwa [Nat.cast_ofNat] at this
  have hmod60 : jsModQ ((n : ℚ) / 1000) 60 = ((n % 60000 : ℕ) : ℚ) / 1000 := by
    unfold jsModQ
    rw [hd60, jsTrunc_eq_floor (by positivity), hm, Int.cast_natCast]
    have hsplit : (n : ℚ) = 60000 * ((n / 60000 : ℕ) : ℚ) + ((n % 60000 : ℕ) : ℚ) := by
      exact_mod_cast (Nat.div_add_mod n 60000).symm
    rw [show ((n : ℚ)) = 60000 * ((n / 60000 : ℕ) : ℚ) + ((n % 60000 : ℕ) : ℚ) from hsplit]
    ring
  have hs : ⌊((n % 60000 : ℕ) : ℚ) / 1000⌋ = ((n % 60000 / 1000 : ℕ) : ℤ) := by
    have := floor_natCast_div (n % 60000) 1000 (by norm_num)
    rwa [Nat.cast_ofNat] at this
  have hfl : ⌊(n : ℚ) / 1000⌋ = ((n / 1000 : ℕ) : ℤ) := by
    have := floor_natCast_div n 1000 (by norm_num)
    rwa [Nat.cast_ofNat] at this
  have hmod1 : jsModQ ((n : ℚ) / 1000) 1 = ((n % 1000 : ℕ) : ℚ) / 1000 := by
    unfold jsModQ
    rw [div_one, jsTrunc_eq_floor hv, hfl, Int.cast_natCast]
    have hsplit : (n : ℚ) = 1000 * ((n / 1000 : ℕ) : ℚ) + ((n % 1000 : ℕ) : ℚ) := by
      exact_mod_cast (Nat.div_add_mod n 1000).symm
    rw [show ((n : ℚ)) = 1000 * ((n / 1000 : ℕ) : ℚ) + ((n % 1000 : ℕ) : ℚ) from hsplit]
    ring
  have hms : jsRound (jsModQ ((n : ℚ) / 1000) 1 * 1000) = ((n % 1000 : ℕ) : ℤ) := by
    rw [hmod1]
    have : ((n % 1000 : ℕ) : ℚ) / 1000 * 1000 = ((n % 1000 : ℕ) : ℚ) := by field_simp
    rw [this, jsRound_natCast]
  unfold formatSecondsMMSSL padN
  rw [hd60]
  simp only [hm, hmod60, hs, hms, intToChars_natCast]

/-- Exact-arithmetic recombination for the fixed-hours round trip. -/
theorem hms_arith (n : ℕ) :
    ((n / 3600000 : ℕ) : ℚ) * 3600 + ((n % 3600000 / 60000 : ℕ) : ℚ) * 60 +
        (((n % 60000 / 1000 : ℕ) : ℚ) + ((n % 1000 : ℕ) : ℚ) / 1000) = (n : ℚ) / 1000 := by
  have h : 3600000 * (n / 3600000) + 60000 * (n % 3600000 / 60000) +
      1000 * (n % 60000 / 1000) + n % 1000 = n := by omega
  have hq : ((3600000 * (n / 3600000) + 60000 * (n % 3600000 / 60000) +
      1000 * (n % 60000 / 1000) + n % 1000 : ℕ) : ℚ) = (n : ℚ) := by exact_mod_cast h
  push_cast at hq
  field_simp
  linarith

/-- Exact-arithmetic recombination for the hour-folding round trip. -/
theorem mmss_arith (n : ℕ) :
    ((n / 60000 : ℕ) : ℚ) * 60 +
        (((n % 60000 / 1000 : ℕ) : ℚ) + ((n % 1000 : ℕ) : ℚ) / 1000) = (n : ℚ) / 1000 := by
  have h : 60000 * (n / 60000) + 1000 * (n % 60000 / 1000) + n % 1000 = n := by omega
  have hq : ((60000 * (n / 60000) + 1000 * (n % 60000 / 1000) + n % 1000 : ℕ) : ℚ) = (n : ℚ) := by
    exact_mod_cast h
  push_cast at hq
  field_simp
  linarith

/-! ## Parser non-negativity -/

theorem fracValQ_nonneg (l : List Char) : 0 ≤ fracValQ l := by
  unfold fracValQ
  positivity

theorem parseDec_nonneg {l : List Char} {vr : ℚ × List Char}
    (h : parseDec l = some vr) : 0 ≤ vr.1 := by
  unfold parseDec at h
  dsimp only at h
  split at h
  · split at h
    · exact absurd h (by simp)
    · rw [Option.some_inj] at h
      rw [← h]
      exact add_nonneg (by positivity) (fracValQ_nonneg _)
  · split at h
    · exact absurd h (by simp)
    · rw [Option.some_inj] at h
      rw [← h]
      positivity

theorem pow10_nonneg (e : ℤ) {v : ℚ} (h : 0 ≤ v) : 0 ≤ pow10 e v := by
  unfold pow10
  split <;> positivity

theorem mem_of_mem_dropWhile {p : Char → Bool} {l : List Char} {c : Char}
    (h : c ∈ l.dropWhile p) : c ∈ l := by
  induction l with
  | nil => simpa using h
  | cons a t ih =>
    rw [List.dropWhile_cons] at h
    by_cases hp : p a = true
    · simp only [hp, if_true] at h
      exact List.mem_cons_of_mem a (ih h)
    · simp only [Bool.of_not_eq_true hp, if_false] at h
      exact h

theorem splitSign_fst_one {l : List Char} (h : '-' ∉ l) : (splitSign l).1 = 1 := by
  unfold splitSign
  cases l with
  | nil => rfl
  | cons c t =>
    have hm : c ≠ '-' := fun he => h (he ▸ List.mem_cons_self c t)
    by_cases hp : c = '+'
    · simp [hp]
    · simp [hp, hm]

theorem jsParseFloatOr0_nonneg {l : List Char} (h : '-' ∉ l) : 0 ≤ jsParseFloatOr0 l := by
  unfold jsParseFloatOr0 jsParseFloat
  have h1 : '-' ∉ l.dropWhile jsWhitespace := fun hm => h (mem_of_mem_dropWhile hm)
  cases hpd : parseDec (splitSign (l.dropWhile jsWhitespace)).2 with
  | none => simp [hpd]
  | some vr =>
    simp only [hpd, splitSign_fst_one h1, one_mul, Option.getD_some]
    exact pow10_nonneg _ (parseDec_nonneg hpd)

theorem minus_not_keep : keepTimeChar '-' = false := rfl

theorem no_minus_cleanTs (l : List Char) : '-' ∉ cleanTs l := by
  intro hm
  unfold cleanTs at hm
  have := (List.mem_filter.mp hm).2
  rw [minus_not_keep] at this
  cases this

theorem parts_nonneg {clean : List Char} (hcm : '-' ∉ clean) :
    ∀ q ∈ (splitOnColon clean).map jsParseFloatOr0, 0 ≤ q := by
  intro q hq
  obtain ⟨p, hp, rfl⟩ := List.mem_map.mp hq
  exact jsParseFloatOr0_nonneg (fun hm => hcm (mem_of_mem_splitOnColon hp hm))

theorem branch_nonneg {clean : List Char} (hcm : '-' ∉ clean) :
    0 ≤ (match (splitOnColon clean).map jsParseFloatOr0 with
         | [a, b, c, d] => a * 3600 + b * 60 + c + d / 1000
         | [a, b, c] => a * 3600 + b * 60 + c
         | [a, b] => a * 60 + b
         | _ => jsParseFloatOr0 clean) := by
  have hpn := parts_nonneg hcm
  have hdef : 0 ≤ jsParseFloatOr0 clean := jsParseFloatOr0_nonneg hcm
  generalize hg : (splitOnColon clean).map jsParseFloatOr0 = parts at hpn ⊢
  match parts with
  | [] => exact hdef
  | [a] => exact hdef
  | [a, b] =>
    have ha := hpn a (by simp)
    have hb := hpn b (by simp)
    positivity
  | [a, b, c] =>
    have ha := hpn a (by simp)
    have hb := hpn b (by simp)
    have hc := hpn c (by simp)
    positivity
  | [a, b, c, d] =>
    have ha := hpn a (by simp)
    have hb := hpn b (by simp)
    have hc := hpn c (by simp)
    have hd := hpn d (by simp)
    positivity
  | a :: b :: c :: d :: e :: rest => exact hdef

theorem branch3_nonneg {clean : List Char} (hcm : '-' ∉ clean) :
    0 ≤ (match (splitOnColon clean).map jsParseFloatOr0 with
         | [a, b, c] => a * 3600 + b * 60 + c
         | [a, b] => a * 60 + b
         | _ => jsParseFloatOr0 clean) := by
  have hpn := parts_nonneg hcm
  have hdef : 0 ≤ jsParseFloatOr0 clean := jsParseFloatOr0_nonneg hcm
  generalize hg : (splitOnColon clean).map jsParseFloatOr0 = parts at hpn ⊢
  match parts with
  | [] => exact hdef
  | [a] => exact hdef
  | [a, b] =>
    have ha := hpn a (by simp)
    have hb := hpn b (by simp)
    positivity
  | [a, b, c] =>
    have ha := hpn a (by simp)
    have hb := hpn b (by simp)
    have hc := hpn c (by simp)
    positivity
  | a :: b :: c :: d :: rest => exact hdef

theorem timestampToSecondsL_nonneg (l : List Char) : 0 ≤ timestampToSecondsL l := by
  unfold timestampToSecondsL
  split
  · norm_num
  · have hcm : '-' ∉ cleanTs l := no_minus_cleanTs l
    dsimp only
    split
    · exact jsParseFloatOr0_nonneg hcm
    · exact branch_nonneg hcm

theorem no_minus_cleanGs (l : List Char) :
    '-' ∉ (((((jsTrimL l).map fullWidthToAscii).map fullColonToAscii).map commaToDot).filter keepTimeChar) := by
  intro hm
  have := (List.mem_filter.mp hm).2
  rw [minus_not_keep] at this
  cases this

theorem timestampToSecondsGsL_nonneg (l : List Char) : 0 ≤ timestampToSecondsGsL l := by
  unfold timestampToSecondsGsL
  have hcm := no_minus_cleanGs l
  dsimp only
  split
  · exact jsParseFloatOr0_nonneg hcm
  · exact branch3_nonneg hcm

/-! ## Claim theorems: TimestampParser -/

/-- C5.  Parser totality: for every input (any string, or a number
rendered to a string by `String(...)`, or `null`/`undefined`), both
timestamp parsers return a non-negative rational without raising (the
model functions are total), and unknown input yields `0`. -/
theorem c5_parser_totality :
    (∀ inp : TsInput, 0 ≤ timestampToSecondsGs inp) ∧
      (∀ s : String, 0 ≤ timestampToSeconds s) ∧
      timestampToSecondsGs TsInput.undef = 0 ∧ timestampToSecondsGs TsInput.jnull = 0 ∧
      timestampToSeconds ("") = 0 := by
  refine ⟨?_, ?_, rfl, rfl, rfl⟩
  · intro inp
    cases inp with
    | str s => exact timestampToSecondsGsL_nonneg s.data
    | num r => exact timestampToSecondsGsL_nonneg r.data
    | jnull => norm_num [timestampToSecondsGs]
    | undef => norm_num [timestampToSecondsGs]
  · intro s
    exact timestampToSecondsL_nonneg s.data

/-- C3.  For a token containing a colon, the parser splits the cleaned
string on `:`, parses each part with `parseFloat(p) || 0`, and combines 4
parts as `H*3600 + M*60 + S + part4/1000`, 3 parts as `H*3600 + M*60 + S`,
2 parts as `M*60 + S`, and any other part count falls back to
`parseFloat(clean) || 0`.  The content beyond the definition is that a
colon in the token survives cleaning, so the no-colon branch is not
taken. -/
theorem c3_colon_split (ts : String) (h : ':' ∈ ts.data) :
    timestampToSeconds ts =
      match (splitOnColon (cleanTs ts.data)).map jsParseFloatOr0 with
      | [a, b, c, d] => a * 3600 + b * 60 + c + d / 1000
      | [a, b, c] => a * 3600 + b * 60 + c
      | [a, b] => a * 60 + b
      | _ => jsParseFloatOr0 (cleanTs ts.data) := by
  unfold timestampToSeconds timestampToSecondsL
  have hne : ts.data ≠ [] := by
    intro he
    rw [he] at h
    cases h
  rw [if_neg hne]
  have hcol : ':' ∈ cleanTs ts.data := mem_cleanTs_of_mem h rfl rfl
  rw [if_neg (by simpa using hcol)]

/-- Witness for C3 at the concrete token `1:2`. -/
theorem c3_colon_split_witness :
    timestampToSeconds ("1:2") =
      match (splitOnColon (cleanTs ("1:2").data)).map jsParseFloatOr0 with
      | [a, b, c, d] => a * 3600 + b * 60 + c + d / 1000
      | [a, b, c] => a * 3600 + b * 60 + c
      | [a, b] => a * 60 + b
      | _ => jsParseFloatOr0 (cleanTs ("1:2").data) :=
  c3_colon_split ("1:2") (by decide)

/-- C4.  Round trip: for every value `v ≥ 0` representable to millisecond
precision (`v = n/1000`), parsing the formatted rendering gives back `v`
exactly (in particular within 1 millisecond), both for the fixed-hours
`HH:MM:SS.mmm` formatter and for the hour-folding `MM:SS.mmm`
formatter. -/
theorem c4_roundtrip (n : ℕ) :
    timestampToSeconds (secondsToTimestamp ((n : ℚ) / 1000)) = (n : ℚ) / 1000 ∧
      timestampToSeconds (formatSecondsMMSS ((n : ℚ) / 1000)) = (n : ℚ) / 1000 := by
  have hd : n % 1000 < 1000 := Nat.mod_lt n (by norm_num)
  constructor
  · show timestampToSecondsL (secondsToTimestampL ((n : ℚ) / 1000)) = (n : ℚ) / 1000
    rw [secondsToTimestampL_ms, parse_hms _ _ _ _ hd, hms_arith]
  · show timestampToSecondsL (formatSecondsMMSSL ((n : ℚ) / 1000)) = (n : ℚ) / 1000
    rw [formatSecondsMMSSL_ms, parse_mmss _ _ _ hd, mmss_arith]

/-! ## SequenceNormalizer invariants -/

theorem if_clamp_ge (a b : ℚ) : b ≤ if a < b then b else a := by
  split
  · exact le_refl b
  · rename_i h
    exact le_of_not_lt h

theorem if_clamp_ge_self (a b : ℚ) : a ≤ if a < b then b else a := by
  split
  · rename_i h
    exact le_of_lt h
  · exact le_refl a

theorem if_dur_gt (e s : ℚ) : s < if e ≤ s then s + 1 / 20 else e := by
  split
  · linarith
  · rename_i h
    exact lt_of_not_le h

theorem if_jump_ge (s0 lastEnd : ℚ) :
    lastEnd - 1 / 10 ≤ if s0 < lastEnd - 1 / 10 then lastEnd else s0 := by
  split
  · linarith
  · rename_i h
    exact le_of_not_lt h

theorem monoStep_start_ge (st : ℚ × ℚ) (seg : RawSeg) : st.1 ≤ (monoStep st seg).2.1 := by
  unfold monoStep
  dsimp only
  exact if_clamp_ge _ _

theorem monoStep_start_lt_end (st : ℚ × ℚ) (seg : RawSeg) :
    (monoStep st seg).2.1 < (monoStep st seg).2.2.1 := by
  unfold monoStep
  dsimp only
  exact if_dur_gt _ _

theorem monoStep_end_gt (st : ℚ × ℚ) (seg : RawSeg) :
    st.2 - 1 / 10 < (monoStep st seg).2.2.1 := by
  unfold monoStep
  dsimp only
  have h1 := if_jump_ge (tsOfJVal seg.startTime) st.2
  have h2 := if_clamp_ge_self
    (if tsOfJVal seg.startTime < st.2 - 1 / 10 then st.2 else tsOfJVal seg.startTime) st.1
  have h3 := if_dur_gt (tsOfJVal seg.endTime)
    (if (if tsOfJVal seg.startTime < st.2 - 1 / 10 then st.2 else tsOfJVal seg.startTime) < st.1
      then st.1
      else if tsOfJVal seg.startTime < st.2 - 1 / 10 then st.2 else tsOfJVal seg.startTime)
  linarith

theorem monoStep_state_eq (st : ℚ × ℚ) (seg : RawSeg) :
    (monoStep st seg).1 = ((monoStep st seg).2.1, (monoStep st seg).2.2.1) := rfl

theorem monoGo_inv (segs : List RawSeg) :
    ∀ st : ℚ × ℚ,
      (∀ p ∈ monoGo st segs, p.1 < p.2.1) ∧
        List.Chain' (fun a b : ℚ × ℚ × String => a.1 ≤ b.1) (monoGo st segs) ∧
        List.Chain' (fun a b : ℚ × ℚ × String => a.2.1 - 1 / 10 < b.2.1) (monoGo st segs) ∧
        (∀ h ∈ (monoGo st segs).head?, st.1 ≤ h.1 ∧ st.2 - 1 / 10 < h.2.1) := by
  induction segs with
  | nil =>
    intro st
    refine ⟨?_, ?_, ?_, ?_⟩ <;> simp [monoGo]
  | cons seg rest ih =>
    intro st
    obtain ⟨ih1, ih2, ih3, ih4⟩ := ih (monoStep st seg).1
    have hout : monoGo st (seg :: rest) = (monoStep st seg).2 :: monoGo (monoStep st seg).1 rest := rfl
    refine ⟨?_, ?_, ?_, ?_⟩
    · intro p hp
      rw [hout, List.mem_cons] at hp
      rcases hp with h1 | h1
      · subst h1
        exact monoStep_start_lt_end st seg
      · exact ih1 p h1
    · rw [hout, List.chain'_cons']
      refine ⟨?_, ih2⟩
      intro y hy
      have := (ih4 y hy).1
      rw [monoStep_state_eq] at this
      exact le_trans (le_of_eq rfl) this
    · rw [hout, List.chain'_cons']
      refine ⟨?_, ih3⟩
      intro y hy
      have := (ih4 y hy).2
      rw [monoStep_state_eq] at this
      exact this
    · intro h hh
      rw [hout] at hh
      simp only [List.head?_cons, Option.mem_def, Option.some_inj] at hh
      subst hh
      exact ⟨monoStep_start_ge st seg, monoStep_end_gt st seg⟩

theorem monoGo_length (st : ℚ × ℚ) (segs : List RawSeg) :
    (monoGo st segs).length = segs.length := by
  induction segs generalizing st with
  | nil => rfl
  | cons seg rest ih => simp [monoGo, ih]

theorem monoGo_get?_text (st : ℚ × ℚ) (segs : List RawSeg) (i : ℕ) :
    ((monoGo st segs).get? i).map (fun p => p.2.2) =
      (segs.get? i).map (fun r => jsTrim (jsStringOfJVal r.text)) := by
  induction segs generalizing st i with
  | nil => rfl
  | cons seg rest ih =>
    cases i with
    | zero => rfl
    | succ i => exact ih (monoStep st seg).1 i

theorem enforceMonotonicity_text (segs : List RawSeg) (i : ℕ) :
    ((enforceMonotonicity segs).get? i).map (fun s => s.text) =
      (segs.get? i).map (fun r => jsTrim (jsStringOfJVal r.text)) := by
  unfold enforceMonotonicity
  rw [List.get?_map]
  rw [← monoGo_get?_text (-1, 0) segs i]
  unfold monoTimes
  cases (monoGo (-1, 0) segs).get? i <;> rfl

/-! ## Claim theorems: SequenceNormalizer -/

/-- C1.  Every emitted numeric pair satisfies `start < end` (hence
`start ≤ end`, and strictly whenever the duration repair fired — the
repair always leaves a strictly positive 0.05s window), and the numeric
start times never decrease along the output. -/
theorem c1_monotonic (segs : List RawSeg) :
    (∀ p ∈ monoTimes segs, p.1 < p.2.1) ∧
      List.Chain' (fun a b : ℚ × ℚ × String => a.1 ≤ b.1) (monoTimes segs) := by
  obtain ⟨h1, h2, _, _⟩ := monoGo_inv segs (-1, 0)
  exact ⟨h1, h2⟩

unseal Rat.add Rat.mul Rat.inv Rat.sub in
/-- Witness for C1: on the record with start `"5"`, end `"3"`, text `"a"`,
the emitted pair is `(5, 5.05)` and the strict inequality holds there. -/
theorem c1_monotonic_witness : (5 : ℚ) < 101 / 20 :=
  (c1_monotonic [⟨.str ("5"), .str ("3"), .str ("a")⟩]).1
    ((5 : ℚ), ((101 : ℚ) / 20, ("a" : String))) (by decide)

unseal Rat.add Rat.mul Rat.inv Rat.sub in
/-- C2 counterexample.  On the two records
`{start "0", end "100"}, {start "99.95", end "99.96"}` the second segment
starts within the 0.1s backward tolerance of the first end, is not
clamped, and its end `99.96` regresses below the previous end `100`. -/
theorem c2_counterexample :
    ((monoTimes [⟨.str ("0"), .str ("100"), .str ("a")⟩,
        ⟨.str ("99.95"), .str ("99.96"), .str ("b")⟩]).map (fun p => p.2.1) =
      [100, 2499 / 25]) ∧ ¬ ((100 : ℚ) ≤ 2499 / 25) := by
  constructor
  · decide
  · norm_num

/-- C2 amended.  End times can regress, but never by more than the 0.1s
backward-jump tolerance: along the output, `end_i > end_(i-1) - 0.1`. -/
theorem c2_amended_end_regress (segs : List RawSeg) :
    List.Chain' (fun a b : ℚ × ℚ × String => a.2.1 - 1 / 10 < b.2.1) (monoTimes segs) :=
  (monoGo_inv segs (-1, 0)).2.2.1

unseal Rat.add Rat.mul Rat.inv Rat.sub in
/-- C9 counterexample.  A record with a missing (`undefined`) text field
is emitted with text `"undefined"` (the JS `String(...)` coercion), not
the empty string. -/
theorem c9_counterexample :
    (enforceMonotonicity [⟨.str ("0"), .str ("1"), .undef⟩]).map (fun s => s.text) =
        ["undefined"] ∧ ¬ (("undefined" : String) = "") := by
  constructor
  · rfl
  · decide

/-- C9 amended.  A record with missing or `null` text never aborts the
sequence: the segment is emitted, with text equal to the trimmed JS
string coercion of the field — the literal `"undefined"` for a missing
field and `"null"` for a null field (not the empty string). -/
theorem c9_amended_text_coercion (segs : List RawSeg) (i : ℕ) (r : RawSeg)
    (hr : segs.get? i = some r) :
    (r.text = JVal.undef →
        ((enforceMonotonicity segs).get? i).map (fun s => s.text) = some ("undefined")) ∧
      (r.text = JVal.jnull →
        ((enforceMonotonicity segs).get? i).map (fun s => s.text) = some ("null")) := by
  have hmap := enforceMonotonicity_text segs i
  constructor <;> intro ht <;>
    rw [hmap, hr, Option.map_some', ht] <;> rfl

/-- Witness for the amended C9 at a concrete one-record input with
missing text. -/
theorem c9_amended_text_coercion_witness :
    ((enforceMonotonicity [⟨.str ("0"), .str ("1"), .undef⟩]).get? 0).map (fun s => s.text) =
      some ("undefined") :=
  (c9_amended_text_coercion [⟨.str ("0"), .str ("1"), .undef⟩] 0
    ⟨.str ("0"), .str ("1"), .undef⟩ rfl).1 rfl

/-- C10.  The normalizer emits exactly one segment per input record, in
order: the output length equals the input length, the i-th output is the
serialization of the i-th emitted numeric pair, and its text is the
coercion of the i-th input record's text. -/
theorem c10_length_order (segs : List RawSeg) :
    (enforceMonotonicity segs).length = segs.length ∧
      ∀ i : ℕ,
        (enforceMonotonicity segs).get? i =
            ((monoTimes segs).get? i).map
              (fun t => ⟨secondsToTimestamp t.1, secondsToTimestamp t.2.1, t.2.2, none⟩) ∧
          ((enforceMonotonicity segs).get? i).map (fun s => s.text) =
            (segs.get? i).map (fun r => jsTrim (jsStringOfJVal r.text)) := by
  refine ⟨?_, fun i => ⟨?_, enforceMonotonicity_text segs i⟩⟩
  · unfold enforceMonotonicity monoTimes
    rw [List.length_map, monoGo_length]
  · unfold enforceMonotonicity
    rw [List.get?_map]

/-! ## Claim theorems: CaptionGrouper -/

theorem groupGo_join (ty : TextKind) :
    ∀ (rest cur : List TranscriptionSegment), cur ≠ [] →
      (groupGo ty cur rest).flatten = cur ++ rest ∧ ∀ g ∈ groupGo ty cur rest, g ≠ [] := by
  intro rest
  induction rest with
  | nil =>
    intro cur hcur
    constructor
    · simp [groupGo]
    · intro g hg
      simp only [groupGo, List.mem_singleton] at hg
      subst hg
      exact hcur
  | cons s rs ih =>
    intro cur hcur
    unfold groupGo
    cases hl : cur.getLast? with
    | none =>
      exact absurd (List.getLast?_eq_none_iff.mp hl) hcur
    | some prev =>
      by_cases hc : cutDecision ty cur prev s
      · simp only [hc, if_true]
        obtain ⟨ih1, ih2⟩ := ih [s] (by simp)
        constructor
        · rw [List.flatten_cons, ih1]
          rfl
        · intro g hg
          rcases List.mem_cons.mp hg with h1 | h1
          · subst h1
            exact hcur
          · exact ih2 g h1
      · rw [Bool.not_eq_true] at hc
        simp only [hc, Bool.false_eq_true, if_false]
        obtain ⟨ih1, ih2⟩ := ih (cur ++ [s]) (by simp)
        refine ⟨?_, ih2⟩
        rw [ih1, List.append_assoc]
        rfl

/-- C7.  Grouping completeness: the CaptionGrouper partitions its input
into non-empty groups of consecutive segments; concatenating all groups
in order reproduces the input exactly, for either text selector. -/
theorem c7_grouping (ty : TextKind) (segs : List TranscriptionSegment) :
    (groupCues ty segs).flatten = segs ∧ ∀ g ∈ groupCues ty segs, g ≠ [] := by
  cases segs with
  | nil => simp [groupCues]
  | cons s rest =>
    obtain ⟨h1, h2⟩ := groupGo_join ty rest [s] (by simp)
    exact ⟨by rw [groupCues, h1]; rfl, h2⟩

/-- Witness for C7 at a concrete two-segment input. -/
theorem c7_grouping_witness :
    ([(⟨("00:05.000"), ("00:07.000"), ("Hello"), none⟩ : TranscriptionSegment)] :
      List TranscriptionSegment) ≠ [] :=
  (c7_grouping TextKind.original
      [⟨("00:05.000"), ("00:07.000"), ("Hello"), none⟩]).2
    [⟨("00:05.000"), ("00:07.000"), ("Hello"), none⟩] (by decide)

/-! ## Claim theorems: JSONRepairer -/

/-- C6 counterexample.  On the raw text `{"segments":[]}` the direct
parse succeeds with an empty `segments` array ([] is truthy), so
`tryRepairJson` returns normally with zero records — contradicting the
claim that a normal return always carries at least one record. -/
theorem c6_counterexample :
    tryRepairJson ("\x7b\"segments\":[]\x7d") = .ok ([] : List Json) := rfl

/-- C6 amended.  `tryRepairJson` raises its error iff every strategy
fails to produce a segments value: the direct parse and the truncation
repair yield no segments array and the pattern extraction yields zero
records.  A return through pattern extraction is always non-empty, but
the two parse strategies may return normally with zero records (an empty
parsed `segments` array). -/
theorem c6_amended_error_iff (s : String) :
    ((∃ e, tryRepairJson s = .error e) ↔
        (repairStep1 (jsTrimL s.data) = none ∧ repairStep2 (jsTrimL s.data) = none ∧
          regexExtract (jsTrimL s.data) = [])) ∧
      (∀ l, tryRepairJson s = .ok l → repairStep1 (jsTrimL s.data) = none →
        repairStep2 (jsTrimL s.data) = none → l ≠ []) := by
  unfold tryRepairJson
  dsimp only
  cases h1 : repairStep1 (jsTrimL s.data) with
  | some segs =>
    constructor
    · simp
    · intro l hl hs1 hs2
      exact Option.noConfusion hs1
  | none =>
    cases h2 : repairStep2 (jsTrimL s.data) with
    | some segs =>
      constructor
      · simp
      · intro l hl hs1 hs2
        exact Option.noConfusion hs2
    | none =>
      by_cases hre : (regexExtract (jsTrimL s.data)).isEmpty
      · simp only [hre, if_true]
        constructor
        · simp only [List.isEmpty_iff] at hre
          simp [hre]
        · intro l hl
          exact absurd hl (by simp)
      · simp only [Bool.of_not_eq_true hre, Bool.false_eq_true, if_false]
        constructor
        · simp only [List.isEmpty_iff] at hre
          simp [hre]
        · intro l hl _ _
          rw [Except.ok.injEq] at hl
          subst hl
          simpa [List.isEmpty_iff] using hre

/-- Witness for the amended C6: a raw text with no closing brace at all,
on which the direct parse and the truncation repair fail and the pattern
extraction recovers a (non-empty) record list. -/
theorem c6_amended_error_iff_witness :
    regexExtract (jsTrimL ("\x7b \"startTime\": \"0:01\", \"endTime\": \"0:02\", \"text\": \"hi\"").data) ≠ [] :=
  (c6_amended_error_iff
      ("\x7b \"startTime\": \"0:01\", \"endTime\": \"0:02\", \"text\": \"hi\"")).2
    (regexExtract (jsTrimL ("\x7b \"startTime\": \"0:01\", \"endTime\": \"0:02\", \"text\": \"hi\"").data))
    rfl rfl rfl

/-! ## Claim theorems: full-width normalization (C8) -/

unseal Rat.add Rat.mul Rat.inv Rat.sub in
/-- C8 counterexample.  The geminiService parser maps full-width digits
and the full-width colon to ASCII, but NOT the full-width full stop
`．` (U+FF0E), which the cleaning step strips; so `０１：３０．５`
cleans to `01:305` and parses to `1*60 + 305 = 365`, not `90.5`. -/
theorem c8_counterexample :
    timestampToSecondsGs (TsInput.str ("０１：３０．５")) = 365 ∧
      ((365 : ℚ) ≠ 181 / 2) := by
  constructor
  · decide
  · norm_num

unseal Rat.add Rat.mul Rat.inv Rat.sub in
/-- C8 amended.  Width normalization covers the full-width digits
U+FF10-FF19 and the full-width colon only: the same token with an ASCII
dot parses to `90.5`, while the full-width-dot token parses to `365`. -/
theorem c8_amended_width_normalization :
    timestampToSecondsGs (TsInput.str ("０１：３０.５")) = 181 / 2 ∧
      timestampToSecondsGs (TsInput.str ("０１：３０．５")) = 365 := by
  constructor
  · decide
  · decide

end GT

